import Mathlib

/-!
Verification development for the T-SQL stage-identification / dependency-lineage /
diagram-rendering pipeline.

The definitions below are a shallow embedding of the core source files
(`canonicalize.ts`, `identifyStages.ts`, `generateMermaid.ts`).  JavaScript
strings are modelled as Lean `String` (manipulated through explicit `List Char`
helpers so that every step of the original string pipeline is visible), absent
or `null` values as `Option`, and JavaScript truthiness on strings as
"`some` of a non-empty string".  The external `parser.sqlify` capability is an
opaque function parameter `Expr → Option String`, where `none` models a throw.
-/

namespace TSqlAnalyzer

/-! ## Character-level string helpers (JS string primitives) -/

/-- JavaScript whitespace for `String.prototype.trim` (ASCII portion; the
identifiers handled by the pipeline are ASCII). -/
def isWsChar (c : Char) : Bool :=
  c = ' ' || c = '\t' || c = '\n' || c = '\r' || c = '\x0b' || c = '\x0c'

/-- `s.trim()` on the character list. -/
def trimChars (l : List Char) : List Char :=
  ((l.dropWhile isWsChar).reverse.dropWhile isWsChar).reverse

/-- Remove one leading occurrence of `c` (the `^c` half of a `/^c|c$/g` replace). -/
def dropLead (c : Char) (l : List Char) : List Char :=
  match l with
  | [] => []
  | a :: t => if a = c then t else a :: t

/-- Remove one trailing occurrence of `c` (the `c$` half of a `/^c|c$/g` replace). -/
def dropTrail (c : Char) (l : List Char) : List Char :=
  (dropLead c l.reverse).reverse

/-- `s.split('.')` on the character list: splits into (possibly empty) segments. -/
def splitDot : List Char → List (List Char)
  | [] => [[]]
  | c :: t =>
    let r := splitDot t
    if c = '.' then [] :: r
    else
      match r with
      | h :: t2 => (c :: h) :: t2
      | [] => [[c]]

/-- `startsWith` for a single character. -/
def startsWithChar (c : Char) (l : List Char) : Bool :=
  match l with
  | [] => false
  | a :: _ => a = c

/-- `endsWith` for a single character. -/
def endsWithChar (c : Char) (l : List Char) : Bool :=
  startsWithChar c l.reverse

/-! ## Identifier Canonicalizer (`src/server/utils/canonicalize.ts`) -/

/-- `stripBrackets`: `s.replace(/^\[|\]$/g, '').replace(/^"|"$/g, '')` —
removes one leading `[`, one trailing `]`, then one leading and one
trailing double quote. -/
def stripBracketsChars (l : List Char) : List Char :=
  dropTrail '\"' (dropLead '\"' (dropTrail ']' (dropLead '[' l)))

/-- `getLastIdentifierPart`: empty string is returned unchanged; otherwise the
string is split on `.`, each part trimmed, and the last part returned. -/
def getLastPartChars (l : List Char) : List Char :=
  if l = [] then []
  else ((splitDot l).map trimChars).getLastD []

/-- The canonicalization pipeline of `canonicalizeIdentifier` on a non-empty
trimmed-input character list: trim; strip one layer of surrounding `[...]`;
strip surrounding double quotes; keep the last dot-separated part; strip
brackets/quotes again; lower-case. -/
def bracketSlice (v : List Char) : List Char :=
  if startsWithChar '[' v && endsWithChar ']' v then (v.drop 1).dropLast else v

def canonChars (l : List Char) : List Char :=
  (stripBracketsChars (getLastPartChars
    (dropTrail '\"' (dropLead '\"' (bracketSlice (trimChars l)))))).map Char.toLower

/-- `canonicalizeIdentifier(name: string | undefined | null): string | null`.
`none` models `null`/`undefined`; the `if (!name) return null` guard also
catches the empty string (JS falsiness). -/
def canonicalizeIdentifier (name : Option String) : Option String :=
  match name with
  | none => none
  | some s => if s = "" then none else some ⟨canonChars s.data⟩

/-- JS truthy-or on an optional string with a string default:
`x || d` where `none` and `""` are falsy. -/
def jsOrD (o : Option String) (d : String) : String :=
  match o with
  | none => d
  | some s => if s = "" then d else s

/-- JS truthiness of an optional string. -/
def strTruthy (o : Option String) : Bool :=
  match o with
  | none => false
  | some s => !(s = "" : Bool)

/-! ## AST model (the shapes of `node-sql-parser` values probed by the code)

The JavaScript code is duck-typed; the inductives below have one constructor
per shape the code distinguishes.  List-valued fields use dedicated spine
types (`ExprL`, `FromL`) so that every recursive function below is plainly
structural (and therefore kernel-reducible for concrete evaluation). -/

/-- A value that may be a plain string or an object carrying a `.value`
string field (the two encodings probed for `table`/`name` fields). -/
inductive NameVal : Type where
  | str (s : String)
  | objV (value : Option String)

mutual

/-- An expression node (`where`/`on`/`groupby` trees): `binary_expr`,
`column_ref`, `number`, string literals, `expr_list`, `function`, a nested
`select`, `null`, a bare string, or an unrecognized shape (tagged so distinct
unknown nodes stay distinguishable). -/
inductive Expr : Type where
  | nullE
  | strE (s : String)
  | binary (op : String) (l r : Expr)
  | columnRef (table column : Option String)
  | numberE (v : Int)
  | stringE (v : String)
  | listE (items : ExprL)
  | funcE (name : Option String) (args : Option ExprL)
  | selectE (q : Query)
  | unknown (tag : Nat)

/-- Spine of a list of expressions. -/
inductive ExprL : Type where
  | nil
  | cons (e : Expr) (t : ExprL)

/-- A `select`-shaped node: optional `from` array, optional `join` array,
optional `where` tree, optional `groupby` value. -/
inductive Query : Type where
  | mk (fromArr : Option FromL) (joinArr : Option FromL)
       (whereE : Option Expr) (gb : Option GroupByVal)

/-- Spine of a `from`/`join` array. -/
inductive FromL : Type where
  | nil
  | cons (i : FromItem) (t : FromL)

/-- An entry of a `from`/`join` array: either a bare string or an object with
the fields the code probes (`table`, `db`, `schema`, `as`, `alias`, `join`,
`on`, `expr`, `value`, `name`). -/
inductive FromItem : Type where
  | strI (s : String)
  | obj (table : Option NameVal) (db schem asF aliasF joinF : Option String)
        (onF : Option Expr) (exprF : Option FromExpr)
        (valueF : Option String) (nameF : Option NameVal)

/-- The `expr` field of a from-item: a string, a derived-table subquery
(`type: 'select'`), or some other object. -/
inductive FromExpr : Type where
  | strX (s : String)
  | selX (q : Query)
  | otherX

/-- The `groupby` field: an array, an object with a `columns` array, or a
single expression object. -/
inductive GroupByVal : Type where
  | arr (items : ExprL)
  | colsObj (columns : ExprL)
  | single (e : Expr)

end

/-- Spine to plain list. -/
def ExprL.toList : ExprL → List Expr
  | .nil => []
  | .cons e t => e :: t.toList

/-- Spine to plain list. -/
def FromL.toList : FromL → List FromItem
  | .nil => []
  | .cons i t => i :: t.toList

/-! ## Expression Rehydrator (`extractConditionSql` in `identifyStages.ts`)

`sqlify : Expr → Option String` is the external `parser.sqlify` capability:
`none` models a throw, `some ""` a falsy (empty) result. -/

mutual

/-- `extractConditionSql(node)`: reconstructs SQL text for a condition node;
unhandled shapes attempt the `parser.sqlify` fallback and degrade to the
fixed placeholder `[Complex Expression]`. -/
def extractConditionSql (sqlify : Expr → Option String) : Expr → String
  | .nullE => ""
  | .strE s => s
  | .binary op l r =>
    let ls := extractConditionSql sqlify l
    let rs := extractConditionSql sqlify r
    ⟨trimChars (ls ++ " " ++ op ++ " " ++ rs).data⟩
  | .columnRef table column =>
    if strTruthy table && strTruthy column then
      table.getD "" ++ "." ++ column.getD ""
    else column.getD ""
  | .numberE v => toString v
  | .stringE v => "'" ++ v ++ "'"
  | .listE items =>
    "(" ++ String.intercalate ", " (condSqlList sqlify items) ++ ")"
  | .funcE name args =>
    let argStr := match args with
      | some l => String.intercalate ", " (condSqlList sqlify l)
      | none => ""
    name.getD "" ++ "(" ++ argStr ++ ")"
  | .selectE q => jsOrD (sqlify (.selectE q)) "[Complex Expression]"
  | .unknown tag => jsOrD (sqlify (.unknown tag)) "[Complex Expression]"

/-- Maps `extractConditionSql` over an expression list (the `.map(...)` in the
`expr_list` and `function` branches). -/
def condSqlList (sqlify : Expr → Option String) : ExprL → List String
  | .nil => []
  | .cons e t => extractConditionSql sqlify e :: condSqlList sqlify t

end

/-- A clause item holding reconstructed SQL text (the `{ sql }` records of
`FromItem`/`JoinItem`/`WhereItem`/`GroupByItem` in the diagram spec). -/
structure SqlItem : Type where
  sql : String
deriving DecidableEq, Repr

/-- The recursive `walk` of `extractWhereItems`: AND-conjunctions are
flattened, any other node becomes a single item (if its reconstructed SQL is
non-empty). -/
def whereWalk (sqlify : Expr → Option String) : Expr → List SqlItem
  | .binary op l r =>
    if op = "AND" then whereWalk sqlify l ++ whereWalk sqlify r
    else
      let s := extractConditionSql sqlify (.binary op l r)
      if s = "" then [] else [⟨s⟩]
  | e =>
    let s := extractConditionSql sqlify e
    if s = "" then [] else [⟨s⟩]

/-- `extractWhereItems(whereNode)`. -/
def extractWhereItems (sqlify : Expr → Option String) (w : Expr) : List SqlItem :=
  whereWalk sqlify w

/-- `extractGroupBySql(groupItem)`: strings pass through, column references
are rendered directly, anything else defers to `extractConditionSql`. -/
def extractGroupBySql (sqlify : Expr → Option String) (e : Expr) : String :=
  match e with
  | .nullE => ""
  | .strE s => s
  | .columnRef table column =>
    if strTruthy table && strTruthy column then
      table.getD "" ++ "." ++ column.getD ""
    else column.getD ""
  | e => extractConditionSql sqlify e

/-! ## Stage Extractor (`identifyStages.ts`) -/

/-- Probe of a `table`/`name`-shaped field: a truthy string is returned
directly, an object yields its `.value` when that is a truthy string;
otherwise the probe falls through (`none`). -/
def probeNameVal : Option NameVal → Option String
  | some (.str s) => if s = "" then none else some s
  | some (.objV (some v)) => if v = "" then none else some v
  | some (.objV none) => none
  | none => none

/-- JS truthiness of a `table`/`name`-shaped field (objects are always
truthy, strings when non-empty). -/
def nameValTruthy : Option NameVal → Bool
  | some (.str s) => !(s = "" : Bool)
  | some (.objV _) => true
  | none => false

/-- `String(v)` for a `table`/`name`-shaped field (a plain object
stringifies to `[object Object]`). -/
def nameValToString : NameVal → String
  | .str s => s
  | .objV _ => "[object Object]"

/-- Probe of the `expr` field inside `extractTableName`:
`some (some s)` = "return the string s", `some none` = "return null"
(a derived-table subquery), `none` = "fall through to the next probe". -/
def exprProbe : Option FromExpr → Option (Option String)
  | some (.strX s) => if s = "" then none else some (some s)
  | some (.selX _) => some none
  | some .otherX => none
  | none => none

/-- `extractTableName(item)`: normalizes the many AST forms of a FROM/JOIN
item into a string identifier (probing `item.table`, `item.name`,
`item.expr`, `item.value` in source order), or `null`. -/
def extractTableName (it : FromItem) : Option String :=
  match it with
  | .strI s => if s = "" then none else some s
  | .obj table _db _schem _as _alias _join _on exprF valueF nameF =>
    match probeNameVal table with
    | some s => some s
    | none =>
      match probeNameVal nameF with
      | some s => some s
      | none =>
        match exprProbe exprF with
        | some r => r
        | none =>
          match valueF with
          | some s => if s = "" then none else some s
          | none => none

/-- Push a truthy optional string (`if (x) parts.push(x)`). -/
def optPush (o : Option String) : List String :=
  match o with
  | some s => if s = "" then [] else [s]
  | none => []

/-- First truthy of two optional strings (`a || b`), `none` if both falsy. -/
def jsOr2 (a b : Option String) : Option String :=
  match a with
  | some s => if s = "" then jsOr2o b else some s
  | none => jsOr2o b
where
  jsOr2o : Option String → Option String
    | some t => if t = "" then none else some t
    | none => none

/-- `extractFromSql(fromItem)`: `db.schema.table` (raw values, joined with
dots) or the `(SELECT ...)` placeholder for a derived table, with the alias
appended. -/
def extractFromSql (it : FromItem) : String :=
  match it with
  | .strI _ => ""
  | .obj table db schem asF aliasF _join _on exprF _value _name =>
    let tablePart :=
      if nameValTruthy table then
        String.intercalate "." (optPush db ++ optPush schem
          ++ [nameValToString (table.getD (.str ""))])
      else
        match exprF with
        | some (.selX _) => "(SELECT ...)"
        | _ => ""
    match jsOr2 asF aliasF with
    | some a => tablePart ++ " " ++ a
    | none => tablePart

/-- `isDependencyTable(tableName, stageNameSet)`: with a stage-name set the
name is canonicalized (again) and looked up; without one the fallback
heuristics (`cte_` / `#` name markers) apply. -/
def isDependencyTable (tableName : Option String) (stageNameSet : Option (List String)) : Bool :=
  match tableName with
  | none => false
  | some t =>
    if t = "" then false
    else
      match stageNameSet with
      | none => t.startsWith "cte_" || t.startsWith "#"
      | some set =>
        match canonicalizeIdentifier (some t) with
        | none => false
        | some c => !(c = "" : Bool) && set.contains c

/-- `Set.add` on the insertion-ordered list model of a JS `Set`. -/
def setAdd (l : List String) (x : String) : List String :=
  if x ∈ l then l else l ++ [x]

/-- The dependency-tracking step shared by the FROM/JOIN loops and the
recursive walk: extract a table name, canonicalize it, and add the canonical
name if it passes `isDependencyTable`. -/
def depAdd (set : Option (List String)) (it : FromItem) (ds : List String) : List String :=
  match extractTableName it with
  | none => ds
  | some tn =>
    if tn = "" then ds
    else
      let canon := canonicalizeIdentifier (some tn)
      if isDependencyTable canon set && strTruthy canon then setAdd ds (canon.getD "")
      else ds

/-- The derived-table subquery of a from-item, when its `expr` field is an
object of `type: 'select'`. -/
def itemSubquery : FromItem → Option Query
  | .obj _ _ _ _ _ _ _ (some (.selX q)) _ _ => some q
  | _ => none

mutual

/-- `collectTableNamesFromAst(node, stageNameSet, dependencySet)`: walks the
`from` array (recursing into derived-table subqueries), the `join` array
(likewise), and — only when the top-level `where` is a `binary_expr` whose
immediate left/right operand is a `select` — those where-subqueries. -/
def collectQ (set : Option (List String)) : Query → List String → List String
  | .mk fromArr joinArr whereE _gb, ds =>
    let d1 := match fromArr with
      | some items => collectFromL set items ds
      | none => ds
    let d2 := match joinArr with
      | some items => collectFromL set items d1
      | none => d1
    match whereE with
    | some (.binary _op l r) =>
      let d3 := match l with
        | .selectE ql => collectQ set ql d2
        | _ => d2
      match r with
      | .selectE qr => collectQ set qr d3
      | _ => d3
    | _ => d2

/-- One step of the per-array loop: record the table name, then recurse when
the item's `expr` is a `select` (cf. `itemSubquery`). -/
def collectItemStep (set : Option (List String)) : FromItem → List String → List String
  | it, ds =>
    let d := depAdd set it ds
    match it with
    | .obj _ _ _ _ _ _ _ (some (.selX q)) _ _ => collectQ set q d
    | _ => d

/-- The per-array loop of `collectTableNamesFromAst` (identical for the
`from` and `join` arrays). -/
def collectFromL (set : Option (List String)) : FromL → List String → List String
  | .nil, ds => ds
  | .cons it rest, ds => collectFromL set rest (collectItemStep set it ds)

end

/-- The `node.from` part of the walk, as a standalone composition piece. -/
def collectFromsPart (set : Option (List String)) (fa : Option FromL)
    (ds : List String) : List String :=
  match fa with
  | some items => collectFromL set items ds
  | none => ds

/-- The `node.join` part of the walk, as a standalone composition piece. -/
def collectJoinsPart (set : Option (List String)) (ja : Option FromL)
    (ds : List String) : List String :=
  match ja with
  | some items => collectFromL set items ds
  | none => ds

/-- One operand of the top-level WHERE binary expression: traversed only
when it is a `select`. -/
def collectWhereSide (set : Option (List String)) (e : Expr)
    (ds : List String) : List String :=
  match e with
  | .selectE q => collectQ set q ds
  | _ => ds

/-- The `node.where` part of the walk, as a standalone composition piece. -/
def collectWherePart (set : Option (List String)) (we : Option Expr)
    (ds : List String) : List String :=
  match we with
  | some (.binary _op l r) => collectWhereSide set r (collectWhereSide set l ds)
  | _ => ds

/-- `extractJoinSql(joinItem)`: `<TYPE> JOIN <target> [ON <condition>]`. -/
def extractJoinSql (sqlify : Expr → Option String) (it : FromItem) : String :=
  match it with
  | .strI s => if s = "" then "" else "JOIN "
  | .obj table db schem asF aliasF joinF onF _expr _value _name =>
    let joinType := match joinF with
      | some j =>
        if j = "" then "JOIN"
        else
          let ju := j.toUpper
          if (ju.splitOn "JOIN").length > 1 then ju else ju ++ " JOIN"
      | none => "JOIN"
    let tablePart :=
      if nameValTruthy table then
        String.intercalate "." (optPush db ++ optPush schem
          ++ [nameValToString (table.getD (.str ""))])
      else ""
    let tablePart := match jsOr2 asF aliasF with
      | some a => tablePart ++ " " ++ a
      | none => tablePart
    let onCond := match onF with
      | some e => extractConditionSql sqlify e
      | none => ""
    if onCond = "" then joinType ++ " " ++ tablePart
    else joinType ++ " " ++ tablePart ++ " ON " ++ onCond

/-- One step of the FROM-clause loop of `extractStageSpec`: an item with a
truthy `join` field is treated as a JOIN, otherwise as a plain FROM entry;
clause text and dependency tracking happen only when the rendered SQL is
non-empty.  (The loop also records an alias→canonical map, which no later
code reads; it is omitted here as it has no observable effect.) -/
def fromLoopStep (sqlify : Expr → Option String) (set : Option (List String))
    (it : FromItem) : (List SqlItem × List SqlItem × List String) →
    (List SqlItem × List SqlItem × List String)
  | (fs, js, ds) =>
    let joinField := match it with
      | .obj _ _ _ _ _ joinF _ _ _ _ => strTruthy joinF
      | .strI _ => false
    if joinField then
      let joinSql := extractJoinSql sqlify it
      if joinSql = "" then (fs, js, ds)
      else (fs, js ++ [⟨joinSql⟩], depAdd set it ds)
    else
      let fromSql := extractFromSql it
      if fromSql = "" then (fs, js, ds)
      else (fs ++ [⟨fromSql⟩], js, depAdd set it ds)

/-- The FROM-clause loop of `extractStageSpec`. -/
def fromLoop (sqlify : Expr → Option String) (set : Option (List String)) :
    FromL → (List SqlItem × List SqlItem × List String) →
    (List SqlItem × List SqlItem × List String)
  | .nil, acc => acc
  | .cons it rest, acc => fromLoop sqlify set rest (fromLoopStep sqlify set it acc)

/-- The additional-JOIN loop of `extractStageSpec` (over `ast.join`). -/
def joinLoop (sqlify : Expr → Option String) (set : Option (List String)) :
    FromL → (List SqlItem × List String) → (List SqlItem × List String)
  | .nil, acc => acc
  | .cons it rest, (js, ds) =>
    let joinSql := extractJoinSql sqlify it
    let acc := if joinSql = "" then (js, ds) else (js ++ [⟨joinSql⟩], depAdd set it ds)
    joinLoop sqlify set rest acc

/-- A stage specification (`StageSpec` of the diagram spec): id, display
name, kind, the four clause lists, and the inferred dependencies. -/
structure StageSpec : Type where
  id : String
  name : String
  typ : String
  fromItems : List SqlItem
  joinItems : List SqlItem
  whereItems : List SqlItem
  groupByItems : List SqlItem
  dependencies : List String
deriving DecidableEq, Repr

/-- The `groupby` value as the list iterated by `extractStageSpec`
(`Array.isArray ? groupby : (groupby.columns ? groupby.columns : [groupby])`). -/
def gbItems : GroupByVal → List Expr
  | .arr l => l.toList
  | .colsObj l => l.toList
  | .single e => [e]

/-- The FROM-loop accumulator of `extractStageSpec`
(`(fromItems, joinItems, dependencySet)` after the `ast.from` loop). -/
def stageFromAcc (sqlify : Expr → Option String) (set : Option (List String))
    (fa : Option FromL) : List SqlItem × List SqlItem × List String :=
  match fa with
  | some items => fromLoop sqlify set items ([], [], [])
  | none => ([], [], [])

/-- The JOIN-loop accumulator of `extractStageSpec`
(`(joinItems, dependencySet)` after the `ast.join` loop). -/
def stageJoinAcc (sqlify : Expr → Option String) (set : Option (List String))
    (ja : Option FromL) (acc1 : List SqlItem × List SqlItem × List String) :
    List SqlItem × List String :=
  match ja with
  | some items => joinLoop sqlify set items (acc1.2.1, acc1.2.2)
  | none => (acc1.2.1, acc1.2.2)

/-- `extractStageSpec(ast, name, type, stageNameSet)`: extracts the FROM,
JOIN, WHERE and GROUP BY items of one stage and its dependency set (FROM
loop, JOIN loop, then the recursive table-name walk, in source order). -/
def extractStageSpec (sqlify : Expr → Option String) (ast : Option Query)
    (name typ : String) (stageNameSet : Option (List String)) : StageSpec :=
  match ast with
  | none =>
    { id := "S0", name := name, typ := typ, fromItems := [], joinItems := [],
      whereItems := [], groupByItems := [], dependencies := [] }
  | some q =>
    match q with
    | .mk fromArr joinArr whereE gb =>
      { id := "S0", name := name, typ := typ,
        fromItems := (stageFromAcc sqlify stageNameSet fromArr).1,
        joinItems :=
          (stageJoinAcc sqlify stageNameSet joinArr
            (stageFromAcc sqlify stageNameSet fromArr)).1,
        whereItems :=
          match whereE with
          | some w => extractWhereItems sqlify w
          | none => [],
        groupByItems :=
          match gb with
          | some g => (gbItems g).foldl (fun acc e =>
              let s := extractGroupBySql sqlify e
              if s = "" then acc else acc ++ [(⟨s⟩ : SqlItem)]) []
          | none => [],
        dependencies := collectQ stageNameSet (.mk fromArr joinArr whereE gb)
          (stageJoinAcc sqlify stageNameSet joinArr
            (stageFromAcc sqlify stageNameSet fromArr)).2 }

/-! ## Stage discovery (`identifyStages`) -/

/-- The body of a CTE definition: `cte.stmt.ast || cte.stmt` — either an
object wrapping the statement under `.ast`, or the statement itself. -/
inductive CteStmt : Type where
  | withAst (a : Query)
  | plain (q : Query)

/-- `cte.stmt.ast || cte.stmt`. -/
def cteAst : CteStmt → Query
  | .withAst a => a
  | .plain q => q

/-- One `{name, stmt}` entry of a WITH clause. -/
structure CteDef : Type where
  name : Option NameVal
  stmt : Option CteStmt

/-- The CTE-name resolution of the discovery pass: a string name is used
directly; an object contributes its `.value` when truthy; otherwise the name
stays empty (and the CTE is skipped). -/
def cteNameOf (c : CteDef) : String :=
  match c.name with
  | some (.str s) => s
  | some (.objV (some v)) => if v = "" then "" else v
  | _ => ""

/-- The `with` field: an array of CTE definitions or a single one
(the code wraps a non-array value in a one-element array). -/
inductive WithVal : Type where
  | arr (l : List CteDef)
  | single (c : CteDef)

/-- `Array.isArray(stmt.with) ? stmt.with : [stmt.with]`. -/
def ctesOf : WithVal → List CteDef
  | .arr l => l
  | .single c => [c]

/-- The `into` field of a SELECT: a plain string or an object with optional
`table`/`expr`/`value` fields. -/
inductive IntoVal : Type where
  | strV (s : String)
  | objI (table expr value : Option String)

/-- JS truthiness of the `into` field. -/
def intoTruthy : Option IntoVal → Bool
  | none => false
  | some (.strV s) => !(s = "" : Bool)
  | some (.objI _ _ _) => true

/-- `intoObj?.table || intoObj?.expr || intoObj?.value || intoObj || null`
under the branch guard that `intoObj` is truthy (an all-falsy object falls
back to the object itself, which stringifies to `[object Object]`). -/
def resolveIntoName : IntoVal → String
  | .strV s => s
  | .objI t e v =>
    match jsOr2 t (jsOr2 e v) with
    | some s => s
    | none => "[object Object]"

/-- `stmt.table` name resolution for INSERT: an object with a truthy
`.value` yields that value, any other object stringifies. -/
def insertName : NameVal → String
  | .str s => s
  | .objV (some v) => if v = "" then "[object Object]" else v
  | .objV none => "[object Object]"

/-- A governing statement: discriminant `type`, optional WITH clause,
optional `into`, optional `table` (INSERT target), optional inner `select`
(INSERT source), and the statement's own clause content `q` (its
`from`/`join`/`where`/`groupby` fields, read when the statement itself is a
stage's AST). -/
structure Statement : Type where
  typ : Option String
  withClause : Option WithVal
  into : Option IntoVal
  table : Option NameVal
  select : Option Query
  q : Query

/-- A discovered stage before clause extraction. -/
structure ParsedStage : Type where
  name : String
  typ : String
  ast : Option Query

/-- The discovery pass for one statement: WITH-clause CTEs in declaration
order, then the classification of the statement itself (`SELECT ... INTO`,
`INSERT INTO ... SELECT`, plain `SELECT`). -/
def discoverStatement (st : Statement) : List ParsedStage :=
  let cteStages := match st.withClause with
    | some w => (ctesOf w).filterMap (fun c =>
        let nm := cteNameOf c
        if nm = "" then none
        else match c.stmt with
          | some cs => some ⟨nm, "CTE", some (cteAst cs)⟩
          | none => none)
    | none => []
  let mainStages : List ParsedStage :=
    if st.typ = some "select" && intoTruthy st.into then
      match st.into with
      | some io => [⟨resolveIntoName io, "TEMP_TABLE", some st.q⟩]
      | none => []
    else if st.typ = some "insert" && nameValTruthy st.table then
      match st.table with
      | some tv => [⟨insertName tv, "TEMP_TABLE_INSERT", some (st.select.getD st.q)⟩]
      | none => []
    else if st.typ = some "select" && !intoTruthy st.into then
      [⟨"Final SELECT", "FINAL_SELECT", some st.q⟩]
    else []
  cteStages ++ mainStages

/-- The parse result consumed by `identifyStages`: a single statement or an
array of statements. -/
inductive AstVal : Type where
  | single (s : Statement)
  | multi (l : List Statement)

/-- `Array.isArray(ast) ? ast : [ast]`, then the per-statement discovery. -/
def discoverAst (av : AstVal) : List ParsedStage :=
  (match av with
   | .single s => [s]
   | .multi l => l).flatMap discoverStatement

/-- `canonicalizeIdentifier(String(st.name)) || String(st.name).toLowerCase()`:
the canonical key of a discovered stage name. -/
def stageCanonName (n : String) : String :=
  jsOrD (canonicalizeIdentifier (some n)) ⟨n.data.map Char.toLower⟩

/-- The canonical stage-name set built from the discovered stages (the JS
`Set` is modelled as the insertion list; only membership is consumed). -/
def stageCanonSet (parsed : List ParsedStage) : List String :=
  parsed.map (fun st => stageCanonName st.name)

/-- The `.map((stage, index) => ...)` assigning ids `S0, S1, ...` in
discovery order. -/
def assignIds (sqlify : Expr → Option String) (set : List String) :
    Nat → List ParsedStage → List StageSpec
  | _, [] => []
  | i, st :: rest =>
    { extractStageSpec sqlify st.ast st.name st.typ (some set) with
        id := "S" ++ toString i } :: assignIds sqlify set (i + 1) rest

/-- `identifyStages(sqlText)`: the whole body runs in a `try`; a parse (or
discovery) failure is modelled as the `Except.error` input and yields the
empty stage list.  On success the stages are discovered, the canonical
stage-name set is built, and each stage's clauses and dependencies are
extracted. -/
def identifyStages (sqlify : Expr → Option String) (r : Except String AstVal) :
    List StageSpec :=
  match r with
  | .error _ => []
  | .ok av =>
    let parsed := discoverAst av
    let set := stageCanonSet parsed
    assignIds sqlify set 0 parsed

/-! ## Reference-reachability predicates

`TableRefIn` follows the specification's words: a table reference occurs
anywhere within a stage's sub-AST, including derived-table subqueries nested
to arbitrary depth reachable through FROM, JOIN, or WHERE-subquery
positions.  `CodeRefIn` describes the positions the implementation's walk
actually visits (WHERE subqueries only as an immediate operand of the
top-level binary expression).  Comparing the two settles the traversal
claims. -/

/-- A `select` subquery occurs somewhere inside an expression tree (the
spec's "WHERE-subquery positions", at arbitrary nesting depth). -/
inductive SubqueryInExpr : Expr → Query → Prop where
  | here (q : Query) : SubqueryInExpr (.selectE q) q
  | binL {op : String} {l r : Expr} {q : Query} :
      SubqueryInExpr l q → SubqueryInExpr (.binary op l r) q
  | binR {op : String} {l r : Expr} {q : Query} :
      SubqueryInExpr r q → SubqueryInExpr (.binary op l r) q
  | listMem {items : ExprL} {e : Expr} {q : Query} :
      e ∈ items.toList → SubqueryInExpr e q → SubqueryInExpr (.listE items) q
  | funcMem {name : Option String} {items : ExprL} {e : Expr} {q : Query} :
      e ∈ items.toList → SubqueryInExpr e q →
      SubqueryInExpr (.funcE name (some items)) q

/-- Spec-side reachability: a table reference with canonical name `k` occurs
within the sub-AST, through FROM entries, JOIN entries, derived-table
subqueries (arbitrary depth), or subqueries anywhere inside the WHERE tree. -/
inductive TableRefIn : Query → String → Prop where
  | fromRef {l : FromL} {j : Option FromL} {w : Option Expr} {g : Option GroupByVal}
      {it : FromItem} {t k : String} :
      it ∈ l.toList → extractTableName it = some t →
      canonicalizeIdentifier (some t) = some k → TableRefIn (.mk (some l) j w g) k
  | fromSub {l : FromL} {j : Option FromL} {w : Option Expr} {g : Option GroupByVal}
      {it : FromItem} {q' : Query} {k : String} :
      it ∈ l.toList → itemSubquery it = some q' → TableRefIn q' k →
      TableRefIn (.mk (some l) j w g) k
  | joinRef {f : Option FromL} {l : FromL} {w : Option Expr} {g : Option GroupByVal}
      {it : FromItem} {t k : String} :
      it ∈ l.toList → extractTableName it = some t →
      canonicalizeIdentifier (some t) = some k → TableRefIn (.mk f (some l) w g) k
  | joinSub {f : Option FromL} {l : FromL} {w : Option Expr} {g : Option GroupByVal}
      {it : FromItem} {q' : Query} {k : String} :
      it ∈ l.toList → itemSubquery it = some q' → TableRefIn q' k →
      TableRefIn (.mk f (some l) w g) k
  | whereSub {f j : Option FromL} {w : Expr} {g : Option GroupByVal}
      {q' : Query} {k : String} :
      SubqueryInExpr w q' → TableRefIn q' k → TableRefIn (.mk f j (some w) g) k

/-- Code-side reachability: the positions `collectTableNamesFromAst`
actually visits. -/
inductive CodeRefIn : Query → String → Prop where
  | fromRef {l : FromL} {j : Option FromL} {w : Option Expr} {g : Option GroupByVal}
      {it : FromItem} {t k : String} :
      it ∈ l.toList → extractTableName it = some t →
      canonicalizeIdentifier (some t) = some k → CodeRefIn (.mk (some l) j w g) k
  | fromSub {l : FromL} {j : Option FromL} {w : Option Expr} {g : Option GroupByVal}
      {it : FromItem} {q' : Query} {k : String} :
      it ∈ l.toList → itemSubquery it = some q' → CodeRefIn q' k →
      CodeRefIn (.mk (some l) j w g) k
  | joinRef {f : Option FromL} {l : FromL} {w : Option Expr} {g : Option GroupByVal}
      {it : FromItem} {t k : String} :
      it ∈ l.toList → extractTableName it = some t →
      canonicalizeIdentifier (some t) = some k → CodeRefIn (.mk f (some l) w g) k
  | joinSub {f : Option FromL} {l : FromL} {w : Option Expr} {g : Option GroupByVal}
      {it : FromItem} {q' : Query} {k : String} :
      it ∈ l.toList → itemSubquery it = some q' → CodeRefIn q' k →
      CodeRefIn (.mk f (some l) w g) k
  | whereLeft {f j : Option FromL} {g : Option GroupByVal} {op : String}
      {ql : Query} {r : Expr} {k : String} :
      CodeRefIn ql k → CodeRefIn (.mk f j (some (.binary op (.selectE ql) r)) g) k
  | whereRight {f j : Option FromL} {g : Option GroupByVal} {op : String}
      {l : Expr} {qr : Query} {k : String} :
      CodeRefIn qr k → CodeRefIn (.mk f j (some (.binary op l (.selectE qr))) g) k

/-- A dependency name can arise from a from/join item either as its
(canonicalized) extracted table name or through its derived-table subquery. -/
def RefViaItem (it : FromItem) (k : String) : Prop :=
  (∃ t, extractTableName it = some t ∧ canonicalizeIdentifier (some t) = some k)
  ∨ (∃ q', itemSubquery it = some q' ∧ CodeRefIn q' k)

/-- The guard every recorded dependency passed: the recorded name is truthy
and its (re-)canonicalization is a non-empty member of the stage-name set. -/
def depOk (set : Option (List String)) (d : String) : Prop :=
  isDependencyTable (some d) set = true

/-! ## Concrete fixtures used by counterexamples and witnesses -/

/-- A `sqlify` model in which the external unparse capability always throws. -/
def sqlifyNone : Expr → Option String := fun _ => none

/-- A from-item that is a plain table reference. -/
def tableItem (t : String) : FromItem :=
  .obj (some (.str t)) none none none none none none none none none

/-- A from-item that is a derived table (subquery) with an alias. -/
def derivedItem (q : Query) (al : String) : FromItem :=
  .obj none none none (some al) none none none (some (.selX q)) none none

/-- A query with just a `from` array and an optional `where`. -/
def simpleQuery (l : FromL) (w : Option Expr) : Query :=
  .mk (some l) none w none

/-- `a = 1`. -/
def wPredA : Expr := .binary "=" (.columnRef none (some "a")) (.numberE 1)

/-- `b = 2`. -/
def wPredB : Expr := .binary "=" (.columnRef none (some "b")) (.numberE 2)

/-- `c = 3`. -/
def wPredC : Expr := .binary "=" (.columnRef none (some "c")) (.numberE 3)

/-- `b IN (SELECT ... FROM k)` — a WHERE subquery referencing table `k`. -/
def inSubqueryPred : Expr :=
  .binary "IN" (.columnRef none (some "b"))
    (.selectE (simpleQuery (.cons (tableItem "k") .nil) none))

/-- The sub-AST of the C1 counterexample stage:
`FROM t WHERE a = 1 AND b IN (SELECT ... FROM k)`. -/
def qNestedWhere : Query :=
  simpleQuery (.cons (tableItem "t") .nil) (some (.binary "AND" wPredA inSubqueryPred))

/-- `SELECT t.id FROM (SELECT id FROM src) t` — a stage sub-AST referencing
`src` only inside a nested derived table. -/
def qDerivedSrc : Query :=
  simpleQuery
    (.cons (derivedItem (simpleQuery (.cons (tableItem "src") .nil) none) "t") .nil)
    none

/-- `SELECT ... FROM base` — a stage sub-AST with no reference to `x`. -/
def qNoSelfRef : Query :=
  simpleQuery (.cons (tableItem "base") .nil) none

/-- `WITH x AS (SELECT ... FROM x) SELECT ... FROM x` — a statement whose
CTE references its own name. -/
def stmtSelfLoop : Statement :=
  { typ := some "select"
    withClause := some (.arr [⟨some (.str "x"),
      some (.plain (simpleQuery (.cons (tableItem "x") .nil) none))⟩])
    into := none, table := none, select := none
    q := simpleQuery (.cons (tableItem "x") .nil) none }

/-- A two-CTE statement for the stage-count witness:
`WITH a AS (SELECT ... FROM t1), b AS (SELECT ... FROM a) SELECT ... FROM b`. -/
def stmtTwoCtes : Statement :=
  { typ := some "select"
    withClause := some (.arr [
      ⟨some (.str "a"), some (.plain (simpleQuery (.cons (tableItem "t1") .nil) none))⟩,
      ⟨some (.str "b"), some (.plain (simpleQuery (.cons (tableItem "a") .nil) none))⟩])
    into := none, table := none, select := none
    q := simpleQuery (.cons (tableItem "b") .nil) none }

/-! ## Diagram Renderer (`generateMermaid.ts`) -/

/-- One global single-character replacement pass
(`.replace(/c/g, r)` for a one-character pattern). -/
def repChar (c : Char) (r : List Char) : List Char → List Char
  | [] => []
  | ch :: t => (if ch = c then r else [ch]) ++ repChar c r t

/-- `escapeMermaidText(text)`: backslashes doubled, double quotes escaped,
newlines replaced by spaces, carriage returns removed — four sequential
global replaces, innermost first. -/
def escapeMermaidText (s : String) : String :=
  ⟨repChar '\r' [] (repChar '\n' [' ']
    (repChar '\"' ['\\', '\"'] (repChar '\\' ['\\', '\\'] s.data)))⟩

/-- The per-character escaping map described by the spec (each original
character is rewritten exactly once). -/
def escCharL (c : Char) : List Char :=
  if c = '\\' then ['\\', '\\']
  else if c = '\"' then ['\\', '\"']
  else if c = '\n' then [' ']
  else if c = '\r' then []
  else [c]

/-- `stage.type.replace('_', ' ')` — a string-pattern `replace` rewrites only
the first occurrence. -/
def replaceFirstUnderscore : List Char → List Char
  | [] => []
  | c :: t => if c = '_' then ' ' :: t else c :: replaceFirstUnderscore t

/-- The kind annotation inside a stage label. -/
def typeLabel (t : String) : String :=
  ⟨replaceFirstUnderscore t.data⟩

/-- The node labels of one stage block, in emission order: FROM items, JOIN
items, WHERE items, GROUP BY items, each category-tagged, with
`escapeMermaidText` applied exactly once to the item's SQL text. -/
def nodeLabels (st : StageSpec) : List String :=
  st.fromItems.map (fun i => "FROM: " ++ escapeMermaidText i.sql)
  ++ st.joinItems.map (fun i => "JOIN: " ++ escapeMermaidText i.sql)
  ++ st.whereItems.map (fun i => "WHERE: " ++ escapeMermaidText i.sql)
  ++ st.groupByItems.map (fun i => "GROUP BY: " ++ escapeMermaidText i.sql)

/-- A node line `    <id>_N<i>["<label>"]`. -/
def nodeLine (sid : String) (i : Nat) (label : String) : String :=
  "    " ++ sid ++ "_N" ++ toString i ++ "[\"" ++ label ++ "\"]"

/-- The node lines of a stage block, numbered from `i`. -/
def nodeLines (sid : String) : Nat → List String → List String
  | _, [] => []
  | i, l :: t => nodeLine sid i l :: nodeLines sid (i + 1) t

/-- The node ids `<id>_N0 .. <id>_N(n-1)` of a block with `n` nodes. -/
def nodeIdsOf (sid : String) (n : Nat) : List String :=
  (List.range n).map (fun i => sid ++ "_N" ++ toString i)

/-- Sequential intra-block connections (node `i` → node `i+1`). -/
def connLines (ids : List String) : List String :=
  (ids.zip ids.tail).map (fun p => "    " ++ p.1 ++ " --> " ++ p.2)

/-- `generateStageSubgraph(stage)`: the `subgraph` block of one stage,
with the `(No SQL clauses)` placeholder when the stage has no items. -/
def generateStageSubgraph (st : StageSpec) : List String :=
  let stageLabel := st.name ++ " (" ++ typeLabel st.typ ++ ")"
  let header := "subgraph " ++ st.id ++ "[\"" ++ escapeMermaidText stageLabel ++ "\"]"
  let labels := nodeLabels st
  let body :=
    if labels = [] then ["    " ++ st.id ++ "_N0[\"(No SQL clauses)\"]"]
    else nodeLines st.id 0 labels
  let n := if labels = [] then 1 else labels.length
  [header, "    direction TB"] ++ body ++ connLines (nodeIdsOf st.id n) ++ ["end"]

/-- The canonical lookup key used by the lineage pass
(`canonicalizeIdentifier(x) || x`). -/
def depKey (s : String) : String :=
  jsOrD (canonicalizeIdentifier (some s)) s

/-- The `nameToId` map: one `set` per stage in order; the JS `Map` is
modelled by consing onto the front, so a front-first lookup sees the most
recent binding for a key. -/
def buildNameToId (stages : List StageSpec) : List (String × String) :=
  stages.foldl (fun m st => (depKey st.name, st.id) :: m) []

/-- `Map.get`. -/
def mapGet (m : List (String × String)) (k : String) : Option String :=
  (m.find? (fun p => p.1 == k)).map (fun p => p.2)

/-- The dependency arrows: for each stage, each dependency's canonical name
is resolved through `nameToId`; unresolved names are silently dropped. -/
def lineageArrows (stages : List StageSpec) : List String :=
  stages.flatMap (fun st =>
    st.dependencies.filterMap (fun dep =>
      match mapGet (buildNameToId stages) (depKey dep) with
      | some depId => if depId = "" then none else some (depId ++ " --> " ++ st.id)
      | none => none))

/-- The sequential fallback chain (stage `i` → stage `i+1`). -/
def seqChain (stages : List StageSpec) : List String :=
  (stages.zip stages.tail).map (fun p => p.1.id ++ " --> " ++ p.2.id)

/-- `generateStageLineage(stages)`: dependency arrows, or the sequential
fallback chain when no arrow was emitted and there is more than one stage. -/
def generateStageLineage (stages : List StageSpec) : List String :=
  if lineageArrows stages = [] ∧ 1 < stages.length then seqChain stages
  else lineageArrows stages

/-- The diagram specification consumed by the renderer. -/
structure DiagramSpec : Type where
  stages : List StageSpec

/-- `createErrorDiagram(message)`. -/
def createErrorDiagram (msg : String) : String :=
  "flowchart TD\n    E[" ++ escapeMermaidText msg ++ "]"

/-- `generateMermaidCode(spec)`: the fixed error diagram for an empty spec,
otherwise header, stage subgraphs and lineage arrows joined by newlines. -/
def generateMermaidCode (spec : DiagramSpec) : String :=
  if spec.stages = [] then createErrorDiagram "No stages found in SQL"
  else
    String.intercalate "\n"
      (["flowchart TD"]
        ++ spec.stages.flatMap (fun st => [""] ++ generateStageSubgraph st)
        ++ [""] ++ generateStageLineage spec.stages)

/-! # Theorems -/

/-! ### Facts about the canonicalizer -/

theorem dropLead_of_not_starts (c : Char) (l : List Char)
    (h : startsWithChar c l = false) : dropLead c l = l := by
  cases l with
  | nil => rfl
  | cons a t =>
    simp only [startsWithChar, decide_eq_false_iff_not] at h
    simp [dropLead, h]

theorem dropTrail_of_not_ends (c : Char) (l : List Char)
    (h : endsWithChar c l = false) : dropTrail c l = l := by
  unfold dropTrail
  rw [dropLead_of_not_starts c l.reverse h, List.reverse_reverse]

theorem splitDot_of_no_dot (l : List Char) (h : '.' ∉ l) : splitDot l = [l] := by
  induction l with
  | nil => rfl
  | cons c t ih =>
    have hc : c ≠ '.' := fun hc => h (hc ▸ List.mem_cons_self c t)
    have ht : '.' ∉ t := fun ht => h (List.mem_cons_of_mem c ht)
    simp only [splitDot, ih ht]
    simp [hc]

theorem getLastPartChars_clean (l : List Char) (hne : l ≠ [])
    (hdot : '.' ∉ l) (htrim : trimChars l = l) : getLastPartChars l = l := by
  unfold getLastPartChars
  rw [if_neg hne, splitDot_of_no_dot l hdot]
  simp [htrim]

theorem canonChars_clean (l : List Char) (hne : l ≠ [])
    (htrim : trimChars l = l) (hdot : '.' ∉ l)
    (hlb : startsWithChar '[' l = false) (hrb : endsWithChar ']' l = false)
    (hlq : startsWithChar '\"' l = false) (hrq : endsWithChar '\"' l = false)
    (hlow : l.map Char.toLower = l) : canonChars l = l := by
  unfold canonChars bracketSlice
  rw [htrim, hlb]
  simp only [Bool.false_and, Bool.false_eq_true, if_false]
  rw [dropLead_of_not_starts _ _ hlq, dropTrail_of_not_ends _ _ hrq,
    getLastPartChars_clean l hne hdot htrim]
  unfold stripBracketsChars
  rw [dropLead_of_not_starts _ _ hlb, dropTrail_of_not_ends _ _ hrb,
    dropLead_of_not_starts _ _ hlq, dropTrail_of_not_ends _ _ hrq, hlow]

/-- C3 counterexample: canonicalization is not idempotent on a whitespace-only
input.  `canonicalizeIdentifier " "` returns the empty string `""` (the
whitespace-only input survives the `if (!name)` guard and trims to `""`),
but re-canonicalizing `""` returns `null`. -/
theorem canonicalize_not_idempotent_on_whitespace :
    canonicalizeIdentifier (canonicalizeIdentifier (some " "))
      ≠ canonicalizeIdentifier (some " ") := by
  decide

/-- C3 (amended): `canonicalizeIdentifier` returns `null` for `null` or empty
input, and `canon(canon(x)) = canon(x)` holds whenever the canonical output is
a "clean" identifier: non-empty, trimmed, free of dots, and not flanked by a
bracket or double quote, and already lower-case.  (Idempotence fails in
general: `canon(" ") = ""` while `canon("") = null`, and
`canon("[[x") = "[x"` while `canon("[x") = "x"`.) -/
theorem canonicalizeIdentifier_null_and_clean_idempotent :
    canonicalizeIdentifier none = none
    ∧ canonicalizeIdentifier (some "") = none
    ∧ ∀ (x : Option String) (c : String),
        canonicalizeIdentifier x = some c →
        c ≠ "" →
        trimChars c.data = c.data →
        '.' ∉ c.data →
        startsWithChar '[' c.data = false →
        endsWithChar ']' c.data = false →
        startsWithChar '\"' c.data = false →
        endsWithChar '\"' c.data = false →
        c.data.map Char.toLower = c.data →
        canonicalizeIdentifier (canonicalizeIdentifier x) = canonicalizeIdentifier x := by
  refine ⟨rfl, rfl, ?_⟩
  intro x c hx hne htrim hdot hlb hrb hlq hrq hlow
  rw [hx]
  have hdata : c.data ≠ [] := by
    intro hd
    exact hne (by cases c; simp_all)
  have hcanon : canonChars c.data = c.data :=
    canonChars_clean c.data hdata htrim hdot hlb hrb hlq hrq hlow
  simp only [canonicalizeIdentifier, if_neg hne, hcanon]

/-- C3 witness: the amended idempotence theorem applied at the concrete input
`"[dbo].Orders"`, whose canonical form is the clean identifier `"orders"`. -/
theorem canonicalizeIdentifier_idempotent_witness :
    canonicalizeIdentifier (canonicalizeIdentifier (some "[dbo].Orders"))
      = canonicalizeIdentifier (some "[dbo].Orders") :=
  canonicalizeIdentifier_null_and_clean_idempotent.2.2 (some "[dbo].Orders") "orders"
    (by decide) (by decide) (by decide) (by decide) (by decide) (by decide)
    (by decide) (by decide) (by decide)

/-! ### WHERE flattening (C4) -/

/-- C4: WHERE extraction flattens AND-conjunctions into one item per conjunct
in source order, keeps any other top operator as a single item, and on the
concrete trees `a = 1 AND b = 2 AND c = 3` / `a = 1 OR b = 2` yields exactly
3 items in source order / exactly 1 item with the full OR expression. -/
theorem extractWhereItems_flattening :
    (∀ (sqlify : Expr → Option String) (l r : Expr),
        extractWhereItems sqlify (.binary "AND" l r)
          = extractWhereItems sqlify l ++ extractWhereItems sqlify r)
    ∧ (∀ (sqlify : Expr → Option String) (op : String) (l r : Expr), op ≠ "AND" →
        extractWhereItems sqlify (.binary op l r)
          = if extractConditionSql sqlify (.binary op l r) = "" then []
            else [⟨extractConditionSql sqlify (.binary op l r)⟩])
    ∧ extractWhereItems sqlifyNone (.binary "AND" (.binary "AND" wPredA wPredB) wPredC)
        = [⟨"a = 1"⟩, ⟨"b = 2"⟩, ⟨"c = 3"⟩]
    ∧ extractWhereItems sqlifyNone (.binary "OR" wPredA wPredB)
        = [⟨"a = 1 OR b = 2"⟩] := by
  refine ⟨fun sqlify l r => ?_, fun sqlify op l r h => ?_, by decide, by decide⟩
  · simp [extractWhereItems, whereWalk]
  · simp [extractWhereItems, whereWalk, h]

/-- C4 witness: the non-AND branch of the flattening theorem applied at the
concrete operator `OR`. -/
theorem extractWhereItems_flattening_witness :
    extractWhereItems sqlifyNone (.binary "OR" wPredA wPredB)
      = if extractConditionSql sqlifyNone (.binary "OR" wPredA wPredB) = "" then []
        else [⟨extractConditionSql sqlifyNone (.binary "OR" wPredA wPredB)⟩] :=
  extractWhereItems_flattening.2.1 sqlifyNone "OR" wPredA wPredB (by decide)

/-! ### Rehydrator degradation (C9) -/

/-- C9: condition-SQL extraction is a total function of the node (it is
defined for every constructor, including the unrecognized shape, and being a
Lean function it is deterministic and cannot throw); on an unrecognized
shape it returns the `parser.sqlify` fallback when that yields a non-empty
string and the fixed placeholder `[Complex Expression]` otherwise — in
particular the placeholder whenever the fallback throws. -/
theorem extractConditionSql_unknown_degrades :
    ∀ (sqlify : Expr → Option String) (tag : Nat),
      extractConditionSql sqlify (.unknown tag)
        = jsOrD (sqlify (.unknown tag)) "[Complex Expression]"
      ∧ (sqlify (.unknown tag) = none →
          extractConditionSql sqlify (.unknown tag) = "[Complex Expression]") := by
  intro sqlify tag
  refine ⟨by simp [extractConditionSql], fun h => by simp [extractConditionSql, h, jsOrD]⟩

/-- C9 witness: with a `sqlify` that always throws, the unrecognized node
with tag 0 yields the fixed placeholder. -/
theorem extractConditionSql_unknown_degrades_witness :
    extractConditionSql sqlifyNone (.unknown 0) = "[Complex Expression]" :=
  (extractConditionSql_unknown_degrades sqlifyNone 0).2 rfl

/-! ### Pipeline failure degradation (C7) -/

/-- C7: a discovery-pass failure (the `Except.error` parse outcome) makes the
extractor return the empty stage list instead of propagating, and the
renderer maps a zero-stage spec to the fixed one-node error diagram; both
entry points are total Lean functions, so no exception escapes. -/
theorem pipeline_failure_degradation :
    (∀ (sqlify : Expr → Option String) (e : String),
        identifyStages sqlify (.error e) = [])
    ∧ generateMermaidCode ⟨[]⟩ = "flowchart TD\n    E[No stages found in SQL]" :=
  ⟨fun _ _ => rfl, by decide⟩

/-! ### Escaping (C8) -/

theorem repChar_append (c : Char) (r : List Char) (a b : List Char) :
    repChar c r (a ++ b) = repChar c r a ++ repChar c r b := by
  induction a with
  | nil => rfl
  | cons x t ih => simp [repChar, ih]

theorem escPipe_single (c : Char) :
    repChar '\r' [] (repChar '\n' [' ']
      (repChar '\"' ['\\', '\"'] (repChar '\\' ['\\', '\\'] [c]))) = escCharL c := by
  by_cases h1 : c = '\\'
  · subst h1; rfl
  by_cases h2 : c = '\"'
  · subst h2; rfl
  by_cases h3 : c = '\n'
  · subst h3; rfl
  by_cases h4 : c = '\r'
  · subst h4; rfl
  simp [repChar, escCharL, h1, h2, h3, h4]

theorem escPipe_flatMap (l : List Char) :
    repChar '\r' [] (repChar '\n' [' ']
      (repChar '\"' ['\\', '\"'] (repChar '\\' ['\\', '\\'] l)))
      = l.flatMap escCharL := by
  induction l with
  | nil => rfl
  | cons c t ih =>
    have hc : (c :: t : List Char) = [c] ++ t := rfl
    rw [hc, repChar_append, repChar_append, repChar_append, repChar_append,
      escPipe_single, ih, List.flatMap_append]
    simp

/-- C8: the escaping transformation applied to every label equals the
single-pass per-character map (each backslash becomes two backslashes, each
double quote becomes backslash-quote, each newline a single space, each
carriage return is removed, all other characters unchanged — so the four
sequential replaces never re-escape each other's output); a concrete label
containing a quote and a newline renders with the quote escaped and the
newline collapsed, and the surrounding node syntax stays well-formed with
the escape applied exactly once. -/
theorem escapeMermaidText_char_map :
    (∀ s : String, escapeMermaidText s = ⟨s.data.flatMap escCharL⟩)
    ∧ escapeMermaidText "a\"b\nc" = "a\\\"b c"
    ∧ generateStageSubgraph ⟨"S0", "x", "CTE", [⟨"a\"b\nc"⟩], [], [], [], []⟩
        = ["subgraph S0[\"x (CTE)\"]", "    direction TB",
           "    S0_N0[\"FROM: a\\\"b c\"]", "end"] := by
  refine ⟨fun s => ?_, by decide, by decide⟩
  unfold escapeMermaidText
  exact congrArg String.mk (escPipe_flatMap s.data)

/-! ### Sequential fallback in the lineage (C6) -/

/-- C6: when no lineage arrow was emitted and there is more than one stage,
the renderer falls back to the sequential chain; with two or more stages the
lineage is never empty; and a three-stage spec with no dependencies yields
exactly the two arrows `S0 --> S1`, `S1 --> S2`. -/
theorem lineage_sequential_fallback :
    (∀ stages : List StageSpec, lineageArrows stages = [] → 1 < stages.length →
        generateStageLineage stages = seqChain stages)
    ∧ (∀ stages : List StageSpec, 2 ≤ stages.length →
        generateStageLineage stages ≠ [])
    ∧ (∀ s0 s1 s2 : StageSpec, s0.dependencies = [] → s1.dependencies = [] →
        s2.dependencies = [] →
        generateStageLineage [s0, s1, s2]
          = [s0.id ++ " --> " ++ s1.id, s1.id ++ " --> " ++ s2.id]) := by
  refine ⟨fun stages h hl => ?_, fun stages h => ?_, fun s0 s1 s2 h0 h1 h2 => ?_⟩
  · rw [generateStageLineage, if_pos ⟨h, hl⟩]
  · by_cases ha : lineageArrows stages = []
    · rw [generateStageLineage, if_pos ⟨ha, by omega⟩]
      match stages, h with
      | a :: b :: t, _ => simp [seqChain]
    · rw [generateStageLineage, if_neg (fun hc => ha hc.1)]
      exact ha
  · have ha : lineageArrows [s0, s1, s2] = [] := by
      simp [lineageArrows, h0, h1, h2]
    rw [generateStageLineage, if_pos ⟨ha, by simp⟩]
    simp [seqChain]

/-! ### Duplicate canonical names resolve to the last stage (C10) -/

theorem foldl_consMap_rev {α β : Type} (f : α → β) (l : List α) (acc : List β) :
    l.foldl (fun m st => f st :: m) acc = (l.map f).reverse ++ acc := by
  induction l generalizing acc with
  | nil => simp
  | cons a t ih => simp [ih]

theorem buildNameToId_eq (stages : List StageSpec) :
    buildNameToId stages
      = (stages.map (fun st => (depKey st.name, st.id))).reverse := by
  unfold buildNameToId
  rw [foldl_consMap_rev]
  simp

theorem find?_eq_head?_filter {α : Type} (p : α → Bool) (l : List α) :
    l.find? p = (l.filter p).head? := by
  induction l with
  | nil => rfl
  | cons a t ih =>
    by_cases h : p a
    · rw [List.find?_cons_of_pos _ h, List.filter_cons_of_pos h]
      rfl
    · rw [List.find?_cons_of_neg _ h, List.filter_cons_of_neg h, ih]

theorem mapGet_eq (stages : List StageSpec) (k : String) :
    mapGet (buildNameToId stages) k
      = ((stages.filter (fun st => depKey st.name == k)).getLast?).map StageSpec.id := by
  rw [mapGet, buildNameToId_eq, find?_eq_head?_filter, List.filter_reverse,
    List.head?_reverse, List.filter_map, List.getLast?_map]
  simp [Function.comp_def, Option.map_map]

/-- C10: the `nameToId` map binds each canonical key to the id of the *last*
stage in discovery order having that key (later `Map.set` calls overwrite
earlier ones), so every lineage arrow for a dependency on that key
originates from that last same-named stage and never from an earlier one. -/
theorem duplicate_names_resolve_to_last :
    (∀ (stages : List StageSpec) (k : String),
        mapGet (buildNameToId stages) k
          = ((stages.filter (fun st => depKey st.name == k)).getLast?).map StageSpec.id)
    ∧ ∀ stages : List StageSpec,
        lineageArrows stages = stages.flatMap (fun st =>
          st.dependencies.filterMap (fun dep =>
            match ((stages.filter (fun s2 => depKey s2.name == depKey dep)).getLast?).map
                StageSpec.id with
            | some depId => if depId = "" then none else some (depId ++ " --> " ++ st.id)
            | none => none)) :=
  ⟨mapGet_eq, fun stages => by simp only [lineageArrows, mapGet_eq]⟩

/-- C6 witness: the three-stage no-dependency case at concrete stages. -/
theorem lineage_sequential_fallback_witness :
    generateStageLineage
        [⟨"S0", "a", "CTE", [], [], [], [], []⟩,
         ⟨"S1", "b", "CTE", [], [], [], [], []⟩,
         ⟨"S2", "c", "FINAL_SELECT", [], [], [], [], []⟩]
      = ["S0" ++ " --> " ++ "S1", "S1" ++ " --> " ++ "S2"] :=
  lineage_sequential_fallback.2.2
    ⟨"S0", "a", "CTE", [], [], [], [], []⟩
    ⟨"S1", "b", "CTE", [], [], [], [], []⟩
    ⟨"S2", "c", "FINAL_SELECT", [], [], [], [], []⟩ rfl rfl rfl

/-! ### Dependency collection machinery (C1, C2) -/

theorem collectQ_eq (set : Option (List String)) (fa ja : Option FromL)
    (we : Option Expr) (gb : Option GroupByVal) (ds : List String) :
    collectQ set (.mk fa ja we gb) ds
      = collectWherePart set we (collectJoinsPart set ja (collectFromsPart set fa ds)) := by
  cases we with
  | none => cases fa <;> cases ja <;> rfl
  | some w =>
    cases w with
    | binary op l r => cases l <;> cases r <;> cases fa <;> cases ja <;> rfl
    | _ => cases fa <;> cases ja <;> rfl

theorem collectItemStep_eq (set : Option (List String)) (it : FromItem)
    (ds : List String) :
    collectItemStep set it ds
      = match itemSubquery it with
        | some q => collectQ set q (depAdd set it ds)
        | none => depAdd set it ds := by
  cases it with
  | strI s => rfl
  | obj table db schem asF aliasF joinF onF exprF valueF nameF =>
    cases exprF with
    | none => rfl
    | some fe => cases fe <;> rfl

theorem mem_setAdd_self (ds : List String) (x : String) : x ∈ setAdd ds x := by
  unfold setAdd
  split
  · assumption
  · exact List.mem_append_right _ (List.mem_singleton.mpr rfl)

theorem setAdd_ext (ds : List String) (x : String) :
    ∃ e, setAdd ds x = ds ++ e ∧ ∀ d ∈ e, d = x := by
  unfold setAdd
  split
  · exact ⟨[], by simp⟩
  · exact ⟨[x], rfl, by simp⟩

theorem depAdd_ext (set : Option (List String)) (it : FromItem) (ds : List String) :
    ∃ e, depAdd set it ds = ds ++ e
      ∧ ∀ d ∈ e, depOk set d
        ∧ ∃ t, extractTableName it = some t
          ∧ canonicalizeIdentifier (some t) = some d := by
  cases hx : extractTableName it with
  | none => exact ⟨[], by simp [depAdd, hx]⟩
  | some tn =>
    by_cases h0 : tn = ""
    · rw [depAdd, hx]
      simp only [if_pos h0]
      exact ⟨[], by simp⟩
    rw [depAdd, hx]
    simp only [if_neg h0]
    cases hc : canonicalizeIdentifier (some tn) with
    | none => exact ⟨[], by simp [isDependencyTable, strTruthy]⟩
    | some c =>
      by_cases hg : isDependencyTable (some c) set ∧ c ≠ ""
      · have hcond : (isDependencyTable (some c) set && strTruthy (some c)) = true := by
          simp [strTruthy, hg.1, hg.2]
        rw [hcond]
        simp only [if_pos rfl]
        obtain ⟨e, he, hmem⟩ := setAdd_ext ds (Option.getD (some c) "")
        refine ⟨e, he, fun d hd => ?_⟩
        have hdc : d = c := by simpa using hmem d hd
        subst hdc
        exact ⟨hg.1, tn, rfl, hc⟩
      · have hcond : (isDependencyTable (some c) set && strTruthy (some c)) = false := by
          rcases not_and_or.mp hg with h | h
          · simp [Bool.and_eq_false_iff, h]
          · have : c = "" := not_not.mp h
            subst this
            simp [strTruthy]
        rw [hcond]
        simp only [Bool.false_eq_true, if_false]
        exact ⟨[], by simp⟩

theorem depAdd_mono (set : Option (List String)) (it : FromItem) (ds : List String)
    (d : String) (h : d ∈ ds) : d ∈ depAdd set it ds := by
  obtain ⟨e, he, _⟩ := depAdd_ext set it ds
  rw [he]
  exact List.mem_append_left _ h

theorem depAdd_mem_self (setL : List String) (it : FromItem) (ds : List String)
    (t k : String) (hx : extractTableName it = some t)
    (hct : canonicalizeIdentifier (some t) = some k)
    (hk : canonicalizeIdentifier (some k) = some k) (hne : k ≠ "")
    (hmem : k ∈ setL) : k ∈ depAdd (some setL) it ds := by
  have ht0 : t ≠ "" := by
    intro h
    subst h
    simp [canonicalizeIdentifier] at hct
  have hdep : isDependencyTable (some k) (some setL) = true := by
    simp only [isDependencyTable, if_neg hne, hk]
    simp [hne, hmem]
  have hcond : (isDependencyTable (some k) (some setL) && strTruthy (some k)) = true := by
    simp [hdep, strTruthy, hne]
  rw [depAdd, hx]
  simp only [if_neg ht0, hct, hcond, if_pos rfl]
  exact mem_setAdd_self ds (Option.getD (some k) "")

theorem itemSubquery_sizeOf (it : FromItem) (q' : Query)
    (h : itemSubquery it = some q') : sizeOf q' < sizeOf it := by
  cases it with
  | strI s => simp [itemSubquery] at h
  | obj table db schem asF aliasF joinF onF exprF valueF nameF =>
    cases exprF with
    | none => simp [itemSubquery] at h
    | some fe =>
      cases fe with
      | strX s => simp [itemSubquery] at h
      | otherX => simp [itemSubquery] at h
      | selX q =>
        have hq : q = q' := by simpa [itemSubquery] using h
        subst hq
        simp only [FromItem.obj.sizeOf_spec, Option.some.sizeOf_spec,
          FromExpr.selX.sizeOf_spec]
        omega

/-- The extension property of the recursive dependency walk: it only appends
names, every appended name passed the dependency guard, and every appended
name arises from a reference in the positions the walk visits. -/
theorem collect_ext_sized (n : Nat) :
    (∀ q : Query, sizeOf q ≤ n → ∀ (set : Option (List String)) (ds : List String),
      ∃ e, collectQ set q ds = ds ++ e ∧ ∀ d ∈ e, depOk set d ∧ CodeRefIn q d)
    ∧ (∀ l : FromL, sizeOf l ≤ n → ∀ (set : Option (List String)) (ds : List String),
      ∃ e, collectFromL set l ds = ds ++ e
        ∧ ∀ d ∈ e, depOk set d ∧ ∃ it, it ∈ l.toList ∧ RefViaItem it d) := by
  induction n using Nat.strong_induction_on with
  | _ n IH =>
    have IHq : ∀ q : Query, sizeOf q < n → ∀ set ds,
        ∃ e, collectQ set q ds = ds ++ e ∧ ∀ d ∈ e, depOk set d ∧ CodeRefIn q d :=
      fun q hq => (IH (sizeOf q) hq).1 q le_rfl
    have IHl : ∀ l : FromL, sizeOf l < n → ∀ set ds,
        ∃ e, collectFromL set l ds = ds ++ e
          ∧ ∀ d ∈ e, depOk set d ∧ ∃ it, it ∈ l.toList ∧ RefViaItem it d :=
      fun l hl => (IH (sizeOf l) hl).2 l le_rfl
    constructor
    · intro q hq set ds
      obtain ⟨fa, ja, we, gb⟩ := q
      have h1 : ∃ e1, collectFromsPart set fa ds = ds ++ e1
          ∧ ∀ d ∈ e1, depOk set d ∧ CodeRefIn (Query.mk fa ja we gb) d := by
        cases fa with
        | none => exact ⟨[], by simp [collectFromsPart]⟩
        | some l =>
          have hsz : sizeOf l < n := by
            simp only [Query.mk.sizeOf_spec, Option.some.sizeOf_spec] at hq
            omega
          obtain ⟨e1, he1, hm1⟩ := IHl l hsz set ds
          refine ⟨e1, he1, fun d hd => ?_⟩
          obtain ⟨hok, it, hit, href⟩ := hm1 d hd
          refine ⟨hok, ?_⟩
          rcases href with ⟨t, hx, hc⟩ | ⟨q', hsub, hcode⟩
          · exact CodeRefIn.fromRef hit hx hc
          · exact CodeRefIn.fromSub hit hsub hcode
      obtain ⟨e1, he1, hm1⟩ := h1
      have h2 : ∃ e2, collectJoinsPart set ja (ds ++ e1) = (ds ++ e1) ++ e2
          ∧ ∀ d ∈ e2, depOk set d ∧ CodeRefIn (Query.mk fa ja we gb) d := by
        cases ja with
        | none => exact ⟨[], by simp [collectJoinsPart]⟩
        | some l =>
          have hsz : sizeOf l < n := by
            simp only [Query.mk.sizeOf_spec, Option.some.sizeOf_spec] at hq
            omega
          obtain ⟨e2, he2, hm2⟩ := IHl l hsz set (ds ++ e1)
          refine ⟨e2, he2, fun d hd => ?_⟩
          obtain ⟨hok, it, hit, href⟩ := hm2 d hd
          refine ⟨hok, ?_⟩
          rcases href with ⟨t, hx, hc⟩ | ⟨q', hsub, hcode⟩
          · exact CodeRefIn.joinRef hit hx hc
          · exact CodeRefIn.joinSub hit hsub hcode
      obtain ⟨e2, he2, hm2⟩ := h2
      have hside : ∀ x : Expr, sizeOf x < n → ∀ ds' : List String,
          ∃ e, collectWhereSide set x ds' = ds' ++ e
            ∧ ∀ d ∈ e, depOk set d ∧ ∃ qx, x = Expr.selectE qx ∧ CodeRefIn qx d := by
        intro x hx ds'
        cases x with
        | selectE qx =>
          have hq' : sizeOf qx < n := by
            simp only [Expr.selectE.sizeOf_spec] at hx
            omega
          obtain ⟨e, he, hm⟩ := IHq qx hq' set ds'
          exact ⟨e, he, fun d hd => ⟨(hm d hd).1, qx, rfl, (hm d hd).2⟩⟩
        | nullE => exact ⟨[], by simp [collectWhereSide]⟩
        | strE s => exact ⟨[], by simp [collectWhereSide]⟩
        | binary op l r => exact ⟨[], by simp [collectWhereSide]⟩
        | columnRef t c => exact ⟨[], by simp [collectWhereSide]⟩
        | numberE v => exact ⟨[], by simp [collectWhereSide]⟩
        | stringE v => exact ⟨[], by simp [collectWhereSide]⟩
        | listE items => exact ⟨[], by simp [collectWhereSide]⟩
        | funcE name args => exact ⟨[], by simp [collectWhereSide]⟩
        | unknown tag => exact ⟨[], by simp [collectWhereSide]⟩
      have h3 : ∃ e3, collectWherePart set we ((ds ++ e1) ++ e2)
            = ((ds ++ e1) ++ e2) ++ e3
          ∧ ∀ d ∈ e3, depOk set d ∧ CodeRefIn (Query.mk fa ja we gb) d := by
        cases we with
        | none => exact ⟨[], by simp [collectWherePart]⟩
        | some w =>
          cases w with
          | binary op l r =>
            have hls : sizeOf l < n := by
              simp only [Query.mk.sizeOf_spec, Option.some.sizeOf_spec,
                Expr.binary.sizeOf_spec] at hq
              omega
            have hrs : sizeOf r < n := by
              simp only [Query.mk.sizeOf_spec, Option.some.sizeOf_spec,
                Expr.binary.sizeOf_spec] at hq
              omega
            obtain ⟨eL, heL, hmL⟩ := hside l hls ((ds ++ e1) ++ e2)
            obtain ⟨eR, heR, hmR⟩ := hside r hrs (((ds ++ e1) ++ e2) ++ eL)
            refine ⟨eL ++ eR, ?_, fun d hd => ?_⟩
            · simp only [collectWherePart]
              rw [heL, heR]
              simp [List.append_assoc]
            · rcases List.mem_append.mp hd with hdl | hdr
              · obtain ⟨hok, qx, hxe, hcode⟩ := hmL d hdl
                subst hxe
                exact ⟨hok, CodeRefIn.whereLeft hcode⟩
              · obtain ⟨hok, qx, hxe, hcode⟩ := hmR d hdr
                subst hxe
                exact ⟨hok, CodeRefIn.whereRight hcode⟩
          | nullE => exact ⟨[], by simp [collectWherePart]⟩
          | strE s => exact ⟨[], by simp [collectWherePart]⟩
          | columnRef t c => exact ⟨[], by simp [collectWherePart]⟩
          | numberE v => exact ⟨[], by simp [collectWherePart]⟩
          | stringE v => exact ⟨[], by simp [collectWherePart]⟩
          | listE items => exact ⟨[], by simp [collectWherePart]⟩
          | funcE name args => exact ⟨[], by simp [collectWherePart]⟩
          | selectE qx => exact ⟨[], by simp [collectWherePart]⟩
          | unknown tag => exact ⟨[], by simp [collectWherePart]⟩
      obtain ⟨e3, he3, hm3⟩ := h3
      refine ⟨e1 ++ e2 ++ e3, ?_, fun d hd => ?_⟩
      · rw [collectQ_eq, he1, he2, he3]
        simp [List.append_assoc]
      · rcases List.mem_append.mp hd with hd12 | hd3
        · rcases List.mem_append.mp hd12 with hd1 | hd2
          · exact hm1 d hd1
          · exact hm2 d hd2
        · exact hm3 d hd3
    · intro l hl set ds
      cases l with
      | nil => exact ⟨[], by simp [collectFromL]⟩
      | cons it rest =>
        have hstep : ∃ e0, collectItemStep set it ds = ds ++ e0
            ∧ ∀ d ∈ e0, depOk set d ∧ RefViaItem it d := by
          rw [collectItemStep_eq]
          cases hsub : itemSubquery it with
          | none =>
            obtain ⟨e, he, hm⟩ := depAdd_ext set it ds
            exact ⟨e, he, fun d hd => ⟨(hm d hd).1, Or.inl (hm d hd).2⟩⟩
          | some q' =>
            obtain ⟨e, he, hm⟩ := depAdd_ext set it ds
            have hq' : sizeOf q' < n := by
              have h1 := itemSubquery_sizeOf it q' hsub
              have h2 : sizeOf it < sizeOf (FromL.cons it rest) := by
                simp only [FromL.cons.sizeOf_spec]
                omega
              omega
            obtain ⟨e2, he2, hm2⟩ := IHq q' hq' set (ds ++ e)
            refine ⟨e ++ e2, ?_, fun d hd => ?_⟩
            · show collectQ set q' (depAdd set it ds) = ds ++ (e ++ e2)
              rw [he, he2]
              simp [List.append_assoc]
            rcases List.mem_append.mp hd with hdl | hdr
            · exact ⟨(hm d hdl).1, Or.inl (hm d hdl).2⟩
            · exact ⟨(hm2 d hdr).1, Or.inr ⟨q', hsub, (hm2 d hdr).2⟩⟩
        obtain ⟨e0, he0, hm0⟩ := hstep
        have hrest : sizeOf rest < n := by
          simp only [FromL.cons.sizeOf_spec] at hl
          omega
        obtain ⟨e1, he1, hm1⟩ := IHl rest hrest set (ds ++ e0)
        refine ⟨e0 ++ e1, ?_, fun d hd => ?_⟩
        · show collectFromL set (FromL.cons it rest) ds = _
          rw [collectFromL, he0, he1]
          simp [List.append_assoc]
        · rcases List.mem_append.mp hd with hd0 | hd1
          · obtain ⟨hok, href⟩ := hm0 d hd0
            exact ⟨hok, it, by simp [FromL.toList], href⟩
          · obtain ⟨hok, it', hit', href⟩ := hm1 d hd1
            exact ⟨hok, it', by simp [FromL.toList, hit'], href⟩

theorem collectQ_mono (set : Option (List String)) (q : Query) (ds : List String)
    (d : String) (h : d ∈ ds) : d ∈ collectQ set q ds := by
  obtain ⟨e, he, _⟩ := (collect_ext_sized (sizeOf q)).1 q le_rfl set ds
  rw [he]
  exact List.mem_append_left _ h

theorem collectFromL_mono (set : Option (List String)) (l : FromL) (ds : List String)
    (d : String) (h : d ∈ ds) : d ∈ collectFromL set l ds := by
  obtain ⟨e, he, _⟩ := (collect_ext_sized (sizeOf l)).2 l le_rfl set ds
  rw [he]
  exact List.mem_append_left _ h

theorem collectWhereSide_mono (set : Option (List String)) (x : Expr)
    (ds : List String) (d : String) (h : d ∈ ds) : d ∈ collectWhereSide set x ds := by
  cases x <;> simp only [collectWhereSide] <;>
    first
      | exact collectQ_mono _ _ _ _ h
      | exact h

theorem collectWherePart_mono (set : Option (List String)) (we : Option Expr)
    (ds : List String) (d : String) (h : d ∈ ds) : d ∈ collectWherePart set we ds := by
  cases we with
  | none => exact h
  | some w =>
    cases w <;> simp only [collectWherePart] <;>
      first
        | exact collectWhereSide_mono _ _ _ _ (collectWhereSide_mono _ _ _ _ h)
        | exact h

theorem collectJoinsPart_mono (set : Option (List String)) (ja : Option FromL)
    (ds : List String) (d : String) (h : d ∈ ds) : d ∈ collectJoinsPart set ja ds := by
  cases ja with
  | none => exact h
  | some l => exact collectFromL_mono _ _ _ _ h

theorem collectItemStep_mem_self (setL : List String) (it : FromItem)
    (ds : List String) (t k : String) (hx : extractTableName it = some t)
    (hct : canonicalizeIdentifier (some t) = some k)
    (hk : canonicalizeIdentifier (some k) = some k) (hne : k ≠ "")
    (hmem : k ∈ setL) : k ∈ collectItemStep (some setL) it ds := by
  rw [collectItemStep_eq]
  cases hsub : itemSubquery it with
  | none => exact depAdd_mem_self setL it ds t k hx hct hk hne hmem
  | some q' =>
    exact collectQ_mono _ _ _ _ (depAdd_mem_self setL it ds t k hx hct hk hne hmem)

theorem mem_collectFromL_of_item_sized (set : Option (List String)) (k : String) :
    ∀ (n : Nat) (l : FromL), sizeOf l ≤ n → ∀ it : FromItem, it ∈ l.toList →
      (∀ ds, k ∈ collectItemStep set it ds) → ∀ ds, k ∈ collectFromL set l ds := by
  intro n
  induction n using Nat.strong_induction_on with
  | _ n IH =>
    intro l hl it hit hstep ds
    cases l with
    | nil => simp [FromL.toList] at hit
    | cons i rest =>
      have hgoal : collectFromL set (FromL.cons i rest) ds
          = collectFromL set rest (collectItemStep set i ds) := rfl
      rw [hgoal]
      rcases (by simpa [FromL.toList] using hit : it = i ∨ it ∈ rest.toList) with h | h
      · subst h
        exact collectFromL_mono set rest _ k (hstep ds)
      · have hsz : sizeOf rest < n := by
          simp only [FromL.cons.sizeOf_spec] at hl
          omega
        exact IH (sizeOf rest) hsz rest le_rfl it h hstep _

theorem mem_collectFromL_of_item (set : Option (List String)) (l : FromL)
    (it : FromItem) (k : String) (hit : it ∈ l.toList)
    (hstep : ∀ ds, k ∈ collectItemStep set it ds) :
    ∀ ds, k ∈ collectFromL set l ds :=
  mem_collectFromL_of_item_sized set k (sizeOf l) l le_rfl it hit hstep

/-- Completeness of the walk for the positions it visits: every
canonicalization-stable stage name referenced in a code-reachable position
ends up in the dependency set, whatever its initial contents. -/
theorem collect_complete (setL : List String) :
    ∀ {q : Query} {k : String}, CodeRefIn q k →
      canonicalizeIdentifier (some k) = some k → k ≠ "" → k ∈ setL →
      ∀ ds : List String, k ∈ collectQ (some setL) q ds := by
  intro q k h
  induction h with
  | @fromRef l j w g it t k hit hx hc =>
    intro hk hne hmem ds
    rw [collectQ_eq]
    refine collectWherePart_mono _ _ _ _ (collectJoinsPart_mono _ _ _ _ ?_)
    show k ∈ collectFromL (some setL) l ds
    exact mem_collectFromL_of_item _ l it k hit
      (fun ds' => collectItemStep_mem_self setL it ds' t k hx hc hk hne hmem) ds
  | @fromSub l j w g it q' k hit hsub hcode ih =>
    intro hk hne hmem ds
    rw [collectQ_eq]
    refine collectWherePart_mono _ _ _ _ (collectJoinsPart_mono _ _ _ _ ?_)
    show k ∈ collectFromL (some setL) l ds
    refine mem_collectFromL_of_item _ l it k hit (fun ds' => ?_) ds
    rw [collectItemStep_eq, hsub]
    show k ∈ collectQ (some setL) q' (depAdd (some setL) it ds')
    exact ih hk hne hmem _
  | @joinRef f l w g it t k hit hx hc =>
    intro hk hne hmem ds
    rw [collectQ_eq]
    refine collectWherePart_mono _ _ _ _ ?_
    show k ∈ collectFromL (some setL) l (collectFromsPart (some setL) f ds)
    exact mem_collectFromL_of_item _ l it k hit
      (fun ds' => collectItemStep_mem_self setL it ds' t k hx hc hk hne hmem) _
  | @joinSub f l w g it q' k hit hsub hcode ih =>
    intro hk hne hmem ds
    rw [collectQ_eq]
    refine collectWherePart_mono _ _ _ _ ?_
    show k ∈ collectFromL (some setL) l (collectFromsPart (some setL) f ds)
    refine mem_collectFromL_of_item _ l it k hit (fun ds' => ?_) _
    rw [collectItemStep_eq, hsub]
    show k ∈ collectQ (some setL) q' (depAdd (some setL) it ds')
    exact ih hk hne hmem _
  | @whereLeft f j g op ql r k hcode ih =>
    intro hk hne hmem ds
    rw [collectQ_eq]
    show k ∈ collectWherePart (some setL) (some (.binary op (.selectE ql) r)) _
    simp only [collectWherePart]
    refine collectWhereSide_mono _ _ _ _ ?_
    show k ∈ collectQ (some setL) ql _
    exact ih hk hne hmem _
  | @whereRight f j g op l qr k hcode ih =>
    intro hk hne hmem ds
    rw [collectQ_eq]
    show k ∈ collectWherePart (some setL) (some (.binary op l (.selectE qr))) _
    simp only [collectWherePart]
    show k ∈ collectWhereSide (some setL) (.selectE qr) _
    simp only [collectWhereSide]
    exact ih hk hne hmem _

theorem fromLoopStep_ds_ext (sqlify : Expr → Option String)
    (set : Option (List String)) (it : FromItem)
    (acc : List SqlItem × List SqlItem × List String) :
    ∃ e, (fromLoopStep sqlify set it acc).2.2 = acc.2.2 ++ e
      ∧ ∀ d ∈ e, depOk set d
        ∧ ∃ t, extractTableName it = some t
          ∧ canonicalizeIdentifier (some t) = some d := by
  obtain ⟨fs, js, ds⟩ := acc
  simp only [fromLoopStep]
  split
  · split
    · exact ⟨[], by simp⟩
    · obtain ⟨e, he, hm⟩ := depAdd_ext set it ds
      exact ⟨e, by simpa using he, hm⟩
  · split
    · exact ⟨[], by simp⟩
    · obtain ⟨e, he, hm⟩ := depAdd_ext set it ds
      exact ⟨e, by simpa using he, hm⟩

theorem fromLoop_ds_ext_sized (sqlify : Expr → Option String)
    (set : Option (List String)) :
    ∀ (n : Nat) (l : FromL), sizeOf l ≤ n →
      ∀ acc : List SqlItem × List SqlItem × List String,
      ∃ e, (fromLoop sqlify set l acc).2.2 = acc.2.2 ++ e
        ∧ ∀ d ∈ e, depOk set d
          ∧ ∃ it, it ∈ l.toList ∧ ∃ t, extractTableName it = some t
            ∧ canonicalizeIdentifier (some t) = some d := by
  intro n
  induction n using Nat.strong_induction_on with
  | _ n IH =>
    intro l hl acc
    cases l with
    | nil => exact ⟨[], by simp [fromLoop]⟩
    | cons it rest =>
      obtain ⟨e0, he0, hm0⟩ := fromLoopStep_ds_ext sqlify set it acc
      have hsz : sizeOf rest < n := by
        simp only [FromL.cons.sizeOf_spec] at hl
        omega
      obtain ⟨e1, he1, hm1⟩ :=
        IH (sizeOf rest) hsz rest le_rfl (fromLoopStep sqlify set it acc)
      refine ⟨e0 ++ e1, ?_, fun d hd => ?_⟩
      · show (fromLoop sqlify set rest (fromLoopStep sqlify set it acc)).2.2 = _
        rw [he1, he0]
        simp [List.append_assoc]
      · rcases List.mem_append.mp hd with hd0 | hd1
        · obtain ⟨hok, t, hx, hc⟩ := hm0 d hd0
          exact ⟨hok, it, by simp [FromL.toList], t, hx, hc⟩
        · obtain ⟨hok, it', hit', hrest⟩ := hm1 d hd1
          exact ⟨hok, it', by simp [FromL.toList, hit'], hrest⟩

theorem joinLoop_ds_ext_sized (sqlify : Expr → Option String)
    (set : Option (List String)) :
    ∀ (n : Nat) (l : FromL), sizeOf l ≤ n → ∀ acc : List SqlItem × List String,
      ∃ e, (joinLoop sqlify set l acc).2 = acc.2 ++ e
        ∧ ∀ d ∈ e, depOk set d
          ∧ ∃ it, it ∈ l.toList ∧ ∃ t, extractTableName it = some t
            ∧ canonicalizeIdentifier (some t) = some d := by
  intro n
  induction n using Nat.strong_induction_on with
  | _ n IH =>
    intro l hl acc
    cases l with
    | nil => exact ⟨[], by simp [joinLoop]⟩
    | cons it rest =>
      obtain ⟨js, ds⟩ := acc
      have hsz : sizeOf rest < n := by
        simp only [FromL.cons.sizeOf_spec] at hl
        omega
      have hstep : ∃ e0,
          (if extractJoinSql sqlify it = "" then (js, ds)
           else (js ++ [⟨extractJoinSql sqlify it⟩], depAdd set it ds)).2 = ds ++ e0
          ∧ ∀ d ∈ e0, depOk set d
            ∧ ∃ t, extractTableName it = some t
              ∧ canonicalizeIdentifier (some t) = some d := by
        split
        · exact ⟨[], by simp⟩
        · obtain ⟨e, he, hm⟩ := depAdd_ext set it ds
          exact ⟨e, by simpa using he, hm⟩
      obtain ⟨e0, he0, hm0⟩ := hstep
      obtain ⟨e1, he1, hm1⟩ := IH (sizeOf rest) hsz rest le_rfl
        (if extractJoinSql sqlify it = "" then (js, ds)
         else (js ++ [⟨extractJoinSql sqlify it⟩], depAdd set it ds))
      refine ⟨e0 ++ e1, ?_, fun d hd => ?_⟩
      · show (joinLoop sqlify set rest _).2 = _
        rw [he1, he0]
        simp [List.append_assoc]
      · rcases List.mem_append.mp hd with hd0 | hd1
        · obtain ⟨hok, t, hx, hc⟩ := hm0 d hd0
          exact ⟨hok, it, by simp [FromL.toList], t, hx, hc⟩
        · obtain ⟨hok, it', hit', hrest⟩ := hm1 d hd1
          exact ⟨hok, it', by simp [FromL.toList, hit'], hrest⟩

theorem stageInitDeps_ext (sqlify : Expr → Option String)
    (set : Option (List String)) (fa ja : Option FromL) :
    ∀ d ∈ (stageJoinAcc sqlify set ja (stageFromAcc sqlify set fa)).2,
      depOk set d
        ∧ ((∃ l, fa = some l ∧ ∃ it, it ∈ l.toList
              ∧ ∃ t, extractTableName it = some t
                ∧ canonicalizeIdentifier (some t) = some d)
           ∨ (∃ l, ja = some l ∧ ∃ it, it ∈ l.toList
              ∧ ∃ t, extractTableName it = some t
                ∧ canonicalizeIdentifier (some t) = some d)) := by
  intro d hd
  have hfrom : ∀ d' ∈ (stageFromAcc sqlify set fa).2.2,
      depOk set d' ∧ ∃ l, fa = some l ∧ ∃ it, it ∈ l.toList
        ∧ ∃ t, extractTableName it = some t
          ∧ canonicalizeIdentifier (some t) = some d' := by
    intro d' hd'
    cases fa with
    | none => simp [stageFromAcc] at hd'
    | some l =>
      obtain ⟨e, he, hm⟩ :=
        fromLoop_ds_ext_sized sqlify set (sizeOf l) l le_rfl ([], [], [])
      rw [show (stageFromAcc sqlify set (some l)).2.2
          = (fromLoop sqlify set l ([], [], [])).2.2 from rfl, he] at hd'
      simp only [List.nil_append] at hd'
      obtain ⟨hok, it, hit, hr⟩ := hm d' hd'
      exact ⟨hok, l, rfl, it, hit, hr⟩
  cases ja with
  | none =>
    obtain ⟨hok, hrest⟩ := hfrom d (by simpa [stageJoinAcc] using hd)
    exact ⟨hok, Or.inl hrest⟩
  | some l =>
    obtain ⟨e, he, hm⟩ :=
      joinLoop_ds_ext_sized sqlify set (sizeOf l) l le_rfl
        ((stageFromAcc sqlify set fa).2.1, (stageFromAcc sqlify set fa).2.2)
    rw [show (stageJoinAcc sqlify set (some l) (stageFromAcc sqlify set fa)).2
        = (joinLoop sqlify set l
            ((stageFromAcc sqlify set fa).2.1,
             (stageFromAcc sqlify set fa).2.2)).2 from rfl, he] at hd
    rcases List.mem_append.mp hd with hdf | hdj
    · obtain ⟨hok, hrest⟩ := hfrom d hdf
      exact ⟨hok, Or.inl hrest⟩
    · obtain ⟨hok, it, hit, hr⟩ := hm d hdj
      exact ⟨hok, Or.inr ⟨l, rfl, it, hit, hr⟩⟩

/-- Soundness of the extracted dependency set: every recorded name passed
the stage-name-set guard and arises from a reference in a position the code
visits. -/
theorem extractStageSpec_deps_sound (sqlify : Expr → Option String)
    (set : Option (List String)) (q : Query) (name typ : String) :
    ∀ d ∈ (extractStageSpec sqlify (some q) name typ set).dependencies,
      depOk set d ∧ CodeRefIn q d := by
  obtain ⟨fa, ja, we, gb⟩ := q
  intro d hd
  have hd' : d ∈ collectQ set (Query.mk fa ja we gb)
      (stageJoinAcc sqlify set ja (stageFromAcc sqlify set fa)).2 := hd
  obtain ⟨e, he, hm⟩ :=
    (collect_ext_sized (sizeOf (Query.mk fa ja we gb))).1 _ le_rfl set
      (stageJoinAcc sqlify set ja (stageFromAcc sqlify set fa)).2
  rw [he] at hd'
  rcases List.mem_append.mp hd' with h0 | h1
  · obtain ⟨hok, href⟩ := stageInitDeps_ext sqlify set fa ja d h0
    refine ⟨hok, ?_⟩
    rcases href with ⟨l, hfa, it, hit, t, hx, hc⟩ | ⟨l, hja, it, hit, t, hx, hc⟩
    · subst hfa
      exact CodeRefIn.fromRef hit hx hc
    · subst hja
      exact CodeRefIn.joinRef hit hx hc
  · exact hm d h1

/-- Completeness of the extracted dependency set for code-visited positions. -/
theorem extractStageSpec_deps_complete (sqlify : Expr → Option String)
    (setL : List String) (q : Query) (name typ : String) (k : String)
    (href : CodeRefIn q k) (hk : canonicalizeIdentifier (some k) = some k)
    (hne : k ≠ "") (hmem : k ∈ setL) :
    k ∈ (extractStageSpec sqlify (some q) name typ (some setL)).dependencies := by
  obtain ⟨fa, ja, we, gb⟩ := q
  show k ∈ collectQ (some setL) (Query.mk fa ja we gb)
    (stageJoinAcc sqlify (some setL) ja (stageFromAcc sqlify (some setL) fa)).2
  exact collect_complete setL href hk hne hmem _

/-- C1 counterexample: in the stage sub-AST
`FROM t WHERE a = 1 AND b IN (SELECT ... FROM k)` the table reference `k`
occurs in a WHERE-subquery position (one level below the top-level AND), its
canonical name `k` is in the stage-name set, yet the extracted dependencies
do not contain `k`: the walk inspects only the immediate operands of the
top-level WHERE binary expression. -/
theorem dependency_edges_counterexample :
    TableRefIn qNestedWhere "k"
    ∧ "k" ∈ ["k"]
    ∧ "k" ∉ (extractStageSpec sqlifyNone (some qNestedWhere) "final" "FINAL_SELECT"
        (some ["k"])).dependencies := by
  refine ⟨?_, by decide, by decide⟩
  show TableRefIn (.mk (some (.cons (tableItem "t") .nil)) none
      (some (.binary "AND" wPredA inSubqueryPred)) none) "k"
  refine @TableRefIn.whereSub (some (.cons (tableItem "t") .nil)) none
    (.binary "AND" wPredA inSubqueryPred) none
    (simpleQuery (.cons (tableItem "k") .nil) none) "k" ?_ ?_
  · exact SubqueryInExpr.binR (SubqueryInExpr.binR (SubqueryInExpr.here _))
  · show TableRefIn (.mk (some (.cons (tableItem "k") .nil)) none none none) "k"
    exact @TableRefIn.fromRef (.cons (tableItem "k") .nil) none none none
      (tableItem "k") "k" "k" (by simp [FromL.toList]) (by decide) (by decide)

/-- C1 (amended): a stage acquires a dependency edge to `K` whenever a table
reference with canonical name `K` occurs in a FROM or JOIN entry at any
derived-table nesting depth, or inside a subquery that is an *immediate*
operand of the top-level WHERE binary expression (deeper WHERE subqueries,
e.g. under an AND, are missed), provided `K` is canonicalization-stable,
non-empty and in the stage-name set; conversely every recorded dependency
re-canonicalizes into the stage-name set, so base tables outside the set
never become dependency edges. -/
theorem dependency_edges_amended :
    (∀ (sqlify : Expr → Option String) (setL : List String) (q : Query)
        (name typ k : String),
        CodeRefIn q k → canonicalizeIdentifier (some k) = some k → k ≠ "" →
        k ∈ setL →
        k ∈ (extractStageSpec sqlify (some q) name typ (some setL)).dependencies)
    ∧ (∀ (sqlify : Expr → Option String) (setL : List String) (q : Query)
        (name typ d : String),
        d ∈ (extractStageSpec sqlify (some q) name typ (some setL)).dependencies →
        ∃ c, canonicalizeIdentifier (some d) = some c ∧ c ≠ "" ∧ c ∈ setL) := by
  constructor
  · exact fun sqlify setL q name typ k href hk hne hmem =>
      extractStageSpec_deps_complete sqlify setL q name typ k href hk hne hmem
  · intro sqlify setL q name typ d hd
    obtain ⟨hok, _⟩ := extractStageSpec_deps_sound sqlify (some setL) q name typ d hd
    simp only [depOk, isDependencyTable] at hok
    by_cases hde : d = ""
    · rw [if_pos hde] at hok
      exact absurd hok (by simp)
    rw [if_neg hde] at hok
    cases hc : canonicalizeIdentifier (some d) with
    | none =>
      rw [hc] at hok
      exact absurd hok (by simp)
    | some c =>
      rw [hc] at hok
      refine ⟨c, rfl, ?_, ?_⟩
      · intro hce
        subst hce
        simp at hok
      · have := (Bool.and_eq_true _ _).mp hok
        simpa [List.contains, List.elem_iff] using this.2

/-- C1 witness: the amended completeness applied at the concrete sub-AST
`FROM (SELECT ... FROM src) t` — the reference to `src` sits inside a nested
derived table and still produces the dependency edge (the spec's transitive
subquery example). -/
theorem dependency_edges_amended_witness :
    "src" ∈ (extractStageSpec sqlifyNone (some qDerivedSrc) "final" "FINAL_SELECT"
        (some ["src", "final select"])).dependencies := by
  refine dependency_edges_amended.1 sqlifyNone ["src", "final select"] qDerivedSrc
    "final" "FINAL_SELECT" "src" ?_ (by decide) (by decide) (by decide)
  show CodeRefIn (.mk (some (.cons (derivedItem
      (simpleQuery (.cons (tableItem "src") .nil) none) "t") .nil)) none none none)
    "src"
  refine @CodeRefIn.fromSub
    (.cons (derivedItem (simpleQuery (.cons (tableItem "src") .nil) none) "t") .nil)
    none none none
    (derivedItem (simpleQuery (.cons (tableItem "src") .nil) none) "t")
    (simpleQuery (.cons (tableItem "src") .nil) none) "src"
    (by simp [FromL.toList]) rfl ?_
  show CodeRefIn (.mk (some (.cons (tableItem "src") .nil)) none none none) "src"
  exact @CodeRefIn.fromRef (.cons (tableItem "src") .nil) none none none
    (tableItem "src") "src" "src" (by simp [FromL.toList]) (by decide) (by decide)

/-- C2 counterexample: the extractor performs no self-exclusion — for the
input `WITH x AS (SELECT ... FROM x) SELECT ... FROM x` the first produced
stage is named `x` and its dependency set contains its own canonical name
`x` (a self-loop), contradicting the claim. -/
theorem self_loop_counterexample :
    ((identifyStages sqlifyNone (.ok (.single stmtSelfLoop))).head?.map
        (fun sp => (sp.name, sp.dependencies))) = some ("x", ["x"])
    ∧ stageCanonName "x" = "x" := by
  decide

/-- C2 (amended): a stage's dependency set only contains names referenced
(in the code-visited positions) within its sub-AST; in particular a stage
whose sub-AST never references its own canonical name has no self-loop.  The
extractor has no self-exclusion, so a self-referencing sub-AST does create a
self-loop (see the counterexample). -/
theorem no_self_loop_without_self_reference :
    ∀ (sqlify : Expr → Option String) (setL : List String) (q : Query)
      (name typ k : String), ¬ CodeRefIn q k →
      k ∉ (extractStageSpec sqlify (some q) name typ (some setL)).dependencies := by
  intro sqlify setL q name typ k hnot hc
  exact hnot (extractStageSpec_deps_sound sqlify (some setL) q name typ k hc).2

/-- C2 witness: the amended theorem applied at the concrete stage `x` over
`SELECT ... FROM base`, whose sub-AST never references `x`: no self-loop. -/
theorem no_self_loop_witness :
    "x" ∉ (extractStageSpec sqlifyNone (some qNoSelfRef) "x" "CTE"
        (some ["x"])).dependencies := by
  refine no_self_loop_without_self_reference sqlifyNone ["x"] qNoSelfRef "x" "CTE"
    "x" ?_
  intro h
  have hq : qNoSelfRef = Query.mk (some (.cons (tableItem "base") .nil)) none none
      none := rfl
  rw [hq] at h
  cases h with
  | @fromRef l j w g it t k hit hx hc =>
    have hit' : it = tableItem "base" := by simpa [FromL.toList] using hit
    subst hit'
    have hxb : extractTableName (tableItem "base") = some "base" := by decide
    rw [hxb] at hx
    have ht : t = "base" := by
      injection hx with h'
      exact h'.symm
    subst ht
    exact absurd hc (by decide)
  | @fromSub l j w g it q' k hit hsub hcode =>
    have hit' : it = tableItem "base" := by simpa [FromL.toList] using hit
    subst hit'
    have hnone : itemSubquery (tableItem "base") = none := rfl
    rw [hnone] at hsub
    exact Option.noConfusion hsub

/-! ### Stage count and order (C5) -/

theorem filterMap_eq_map_of_all {α β : Type} (f : α → Option β) (g : α → β)
    (l : List α) (h : ∀ a ∈ l, f a = some (g a)) : l.filterMap f = l.map g := by
  induction l with
  | nil => rfl
  | cons a t ih =>
    rw [List.filterMap_cons, h a (List.mem_cons_self a t), List.map_cons,
      ih (fun a ha => h a (List.mem_cons_of_mem _ ha))]

theorem extractStageSpec_typ (sqlify : Expr → Option String) (ast : Option Query)
    (name typ : String) (set : Option (List String)) :
    (extractStageSpec sqlify ast name typ set).typ = typ := by
  cases ast with
  | none => rfl
  | some q => cases q with | mk fa ja we gb => rfl

theorem extractStageSpec_name (sqlify : Expr → Option String) (ast : Option Query)
    (name typ : String) (set : Option (List String)) :
    (extractStageSpec sqlify ast name typ set).name = name := by
  cases ast with
  | none => rfl
  | some q => cases q with | mk fa ja we gb => rfl

theorem assignIds_length (sqlify : Expr → Option String) (set : List String) :
    ∀ (l : List ParsedStage) (i : Nat), (assignIds sqlify set i l).length = l.length := by
  intro l
  induction l with
  | nil => intro i; rfl
  | cons st rest ih => intro i; simp [assignIds, ih]

theorem assignIds_get? (sqlify : Expr → Option String) (set : List String) :
    ∀ (l : List ParsedStage) (i j : Nat),
      (assignIds sqlify set i l).get? j
        = (l.get? j).map (fun st =>
            { extractStageSpec sqlify st.ast st.name st.typ (some set) with
                id := "S" ++ toString (i + j) }) := by
  intro l
  induction l with
  | nil => intro i j; simp [assignIds]
  | cons st rest ih =>
    intro i j
    cases j with
    | zero => simp [assignIds]
    | succ j' =>
      show (assignIds sqlify set (i + 1) rest).get? j' = _
      rw [ih (i + 1) j', List.get?_cons_succ]
      have heq : i + 1 + j' = i + (j' + 1) := by omega
      rw [heq]

/-- The discovery result for one governing SELECT statement with a WITH
clause of well-formed CTE definitions. -/
theorem discoverStatement_ctes_final (st : Statement) (ctes : List CteDef)
    (hw : st.withClause = some (.arr ctes)) (ht : st.typ = some "select")
    (hi : st.into = none)
    (hc : ∀ c ∈ ctes, cteNameOf c ≠ "" ∧ c.stmt.isSome) :
    discoverStatement st
      = ctes.map (fun c => ⟨cteNameOf c, "CTE", c.stmt.map cteAst⟩)
        ++ [⟨"Final SELECT", "FINAL_SELECT", some st.q⟩] := by
  have h1 : ((st.typ = some "select" : Bool) && intoTruthy st.into) = false := by
    rw [ht, hi]
    rfl
  have h3 : ((st.typ = some "select" : Bool) && !intoTruthy st.into) = true := by
    rw [ht, hi]
    rfl
  have h2 : ((st.typ = some "insert" : Bool) && nameValTruthy st.table) = false := by
    rw [ht]
    exact Bool.false_and _
  unfold discoverStatement
  rw [hw, h1, h2, h3]
  simp only [ctesOf, Bool.false_eq_true, if_false, if_true]
  congr 1
  refine filterMap_eq_map_of_all _ _ ctes (fun c hmem => ?_)
  obtain ⟨hname, hsome⟩ := hc c hmem
  obtain ⟨cs, hcs⟩ := Option.isSome_iff_exists.mp hsome
  simp only [if_neg hname, hcs, Option.map_some']

/-- C5: for one governing statement carrying `N` well-formed WITH-clause CTE
definitions and classified as a final SELECT (no INTO), the extractor yields
exactly `N + 1` stages; ids are `S0 .. SN` in discovery order, the first `N`
stages are the CTEs in declaration order (with their names), and the last
stage is the final SELECT. -/
theorem stage_count_and_order (sqlify : Expr → Option String) (st : Statement)
    (ctes : List CteDef)
    (hw : st.withClause = some (.arr ctes)) (ht : st.typ = some "select")
    (hi : st.into = none)
    (hc : ∀ c ∈ ctes, cteNameOf c ≠ "" ∧ c.stmt.isSome) :
    (identifyStages sqlify (.ok (.single st))).length = ctes.length + 1
    ∧ (∀ j, j < ctes.length + 1 →
        ((identifyStages sqlify (.ok (.single st))).get? j).map StageSpec.id
          = some ("S" ++ toString j))
    ∧ (∀ j, j < ctes.length →
        ((identifyStages sqlify (.ok (.single st))).get? j).map StageSpec.typ
            = some "CTE"
        ∧ ((identifyStages sqlify (.ok (.single st))).get? j).map StageSpec.name
            = (ctes.get? j).map cteNameOf)
    ∧ ((identifyStages sqlify (.ok (.single st))).get? ctes.length).map StageSpec.typ
        = some "FINAL_SELECT" := by
  have hdisc : discoverAst (.single st)
      = ctes.map (fun c => ⟨cteNameOf c, "CTE", c.stmt.map cteAst⟩)
        ++ [⟨"Final SELECT", "FINAL_SELECT", some st.q⟩] := by
    show discoverStatement st ++ [] = _
    rw [List.append_nil, discoverStatement_ctes_final st ctes hw ht hi hc]
  have hout : identifyStages sqlify (.ok (.single st))
      = assignIds sqlify (stageCanonSet (discoverAst (.single st))) 0
          (discoverAst (.single st)) := rfl
  set P := ctes.map (fun c => (⟨cteNameOf c, "CTE", c.stmt.map cteAst⟩ : ParsedStage))
    ++ [⟨"Final SELECT", "FINAL_SELECT", some st.q⟩] with hP
  have hPlen : P.length = ctes.length + 1 := by
    simp [hP]
  have hlen : (identifyStages sqlify (.ok (.single st))).length = ctes.length + 1 := by
    rw [hout, assignIds_length, hdisc, hPlen]
  refine ⟨hlen, ?_, ?_, ?_⟩
  · intro j hj
    have hjP : j < P.length := by omega
    obtain ⟨sp, hsp⟩ : ∃ a, P.get? j = some a := ⟨P.get ⟨j, hjP⟩, List.get?_eq_get hjP⟩
    rw [hout, hdisc, assignIds_get?, hsp]
    simp
  · intro j hj
    have hjm : j < (ctes.map (fun c =>
        (⟨cteNameOf c, "CTE", c.stmt.map cteAst⟩ : ParsedStage))).length := by
      simpa using hj
    have hPj : P.get? j = (ctes.get? j).map
        (fun c => (⟨cteNameOf c, "CTE", c.stmt.map cteAst⟩ : ParsedStage)) := by
      rw [hP, List.get?_append hjm, List.get?_map]
    obtain ⟨c, hcj⟩ : ∃ a, ctes.get? j = some a :=
      ⟨ctes.get ⟨j, hj⟩, List.get?_eq_get hj⟩
    rw [hout, hdisc, assignIds_get?, hPj, hcj]
    constructor
    · simp [extractStageSpec_typ]
    · simp [extractStageSpec_name]
  · have hmlen : (ctes.map (fun c =>
        (⟨cteNameOf c, "CTE", c.stmt.map cteAst⟩ : ParsedStage))).length
        = ctes.length := by simp
    have hPj : P.get? ctes.length = some ⟨"Final SELECT", "FINAL_SELECT", some st.q⟩ := by
      rw [hP, List.get?_append_right (by omega), hmlen]
      simp
    rw [hout, hdisc, assignIds_get?, hPj]
    simp [extractStageSpec_typ]

/-- C5 witness: the stage-count theorem applied at the concrete two-CTE
input `WITH a AS (...), b AS (...) SELECT ... FROM b`. -/
theorem stage_count_and_order_witness :
    (identifyStages sqlifyNone (.ok (.single stmtTwoCtes))).length = 2 + 1
    ∧ ((identifyStages sqlifyNone (.ok (.single stmtTwoCtes))).get? 2).map
        StageSpec.typ = some "FINAL_SELECT" := by
  obtain ⟨hlen, _hids, _hctes, hfin⟩ := stage_count_and_order sqlifyNone stmtTwoCtes
    [⟨some (.str "a"), some (.plain (simpleQuery (.cons (tableItem "t1") .nil) none))⟩,
     ⟨some (.str "b"), some (.plain (simpleQuery (.cons (tableItem "a") .nil) none))⟩]
    rfl rfl rfl (by decide)
  exact ⟨hlen, hfin⟩

end TSqlAnalyzer
